import Mathlib

/-!
# ResearchQuest `build_graph/main.cpp`: citation graph ingestion and PageRank

A shallow embedding of the graph builder (`load_paper_info`, `parse_jsonl_file`)
and of the rank computation (`calculate_pagerank`), followed by theorems about them.

Conventions of the embedding:

* a `std::string` is a list of characters (`Str`);
* a `std::unordered_map` is an association list with unique keys, read by `umap_find`
  and written by `umap_assign` (the C++ `m[k] = v`);
* the boost `adjacency_list<vecS, vecS, directedS, VertexProperties>` is the vector of
  vertex records plus the edges in insertion order; a vertex descriptor is an index;
* an `int` is an integer and `int` sums wrap around at 32 bits (`int_add`);
* a `double` is a `Dbl K`: a number of an ordered field `K` with exact arithmetic, or one
  of +inf, -inf, NaN, which flow through the computation as in IEEE arithmetic; the
  only operation that ends `calculate_pagerank` is Eigen's `maxCoeff()` of an empty
  vector (a failed assertion).
-/

set_option autoImplicit false

namespace ResearchQuest


/-! ## Strings -/

/-- A `std::string`. -/
abbrev Str := List Char

/-- The double quote character. -/
def dquote : Char := Char.ofNat 34

/-- The backslash character. -/
def backslash : Char := Char.ofNat 92

/-- The line feed character. -/
def newline : Char := Char.ofNat 10

/-- The C++ `size_t` difference `a - b` (64-bit, wraps around). -/
def size_sub (a b : Nat) : Nat := (a + 2 ^ 64 - b % 2 ^ 64) % 2 ^ 64

/-- The C++ `s.substr(pos, n)` for `pos ≤ s.size()`. -/
def substr (s : Str) (pos n : Nat) : Str := (s.drop pos).take n

/-- The loop of `ReplaceAll`: the argument string is what lies at and after `start_pos`;
the first argument bounds the number of loop rounds. -/
def ReplaceAll.scan (from_ to_ : Str) : Nat → Str → Str
  | 0, s => s
  | _ + 1, [] => []
  | n + 1, c :: cs =>
    if from_.isPrefixOf (c :: cs) then
      to_ ++ ReplaceAll.scan from_ to_ n ((c :: cs).drop from_.length)
    else
      c :: ReplaceAll.scan from_ to_ n cs

/-- The function `ReplaceAll(str, from, to)`: every occurrence of `from`, found left to
right and never inside replaced text, becomes `to`. The source loop does not terminate
for an empty `from`; the embedding is defined for a non-empty one. -/
def ReplaceAll (str from_ to_ : Str) (_h : from_ ≠ []) : Str :=
  ReplaceAll.scan from_ to_ str.length str

/-- The function `escape_dot_string`: a backslash goes before every double quote. -/
def escape_dot_string : Str → Str
  | [] => []
  | c :: cs =>
    if c = dquote then backslash :: dquote :: escape_dot_string cs
    else c :: escape_dot_string cs

/-- The items `getline(ss, item, ',')` yields from a line: the text between commas;
a final empty item is not produced. The first argument is the item being read. -/
def getline_items : Str → Str → List Str
  | cur, [] => if cur = [] then [] else [cur]
  | cur, c :: cs => if c = ',' then cur :: getline_items [] cs else getline_items (cur ++ [c]) cs

/-- The `while (getline(ss, item, ','))` loop of `split_csv_line` with its variables
`result`, `in_quotes` and `temp`. -/
def split_csv_loop : List Str → List Str → Bool → Str → List Str
  | [], result, _, _ => result
  | item :: rest, result, true, temp =>
    let temp1 := temp ++ (',' :: item)
    if item ≠ [] ∧ item.getLast? = some dquote then
      split_csv_loop rest (result ++ [substr temp1 1 (size_sub temp1.length 2)]) false temp1
    else
      split_csv_loop rest result true temp1
  | item :: rest, result, false, temp =>
    if item ≠ [] ∧ item.head? = some dquote ∧ item.getLast? ≠ some dquote then
      split_csv_loop rest result true item
    else if item ≠ [] ∧ item.head? = some dquote ∧ item.getLast? = some dquote then
      split_csv_loop rest (result ++ [substr item 1 (size_sub item.length 2)]) false temp
    else
      split_csv_loop rest (result ++ [item]) false temp

/-- The function `split_csv_line`. -/
def split_csv_line (line : Str) : List Str :=
  split_csv_loop (getline_items [] line) [] false []

/-- The two exceptions `std::stoi` throws. -/
inductive StoiError where
  | invalid_argument
  | out_of_range
  deriving DecidableEq

/-- The C `isspace` in the default locale. -/
def isspace (c : Char) : Bool :=
  c = ' ' || c.toNat = 9 || c.toNat = 10 || c.toNat = 11 || c.toNat = 12 || c.toNat = 13

/-- The value of a run of decimal digits. -/
def digits_value (ds : Str) : Nat :=
  ds.foldl (fun a c => 10 * a + (c.toNat - 48)) 0

/-- The library function `std::stoi(s)`: leading white space is skipped, an optional sign
and the longest run of decimal digits are read, the rest is ignored; no digit gives
`invalid_argument`, a value outside `int` gives `out_of_range`. -/
def stoi (s : Str) : Except StoiError Int :=
  let s1 := s.dropWhile isspace
  let neg := s1.head? = some '-'
  let s2 := if s1.head? = some '-' ∨ s1.head? = some '+' then s1.drop 1 else s1
  let ds := s2.takeWhile Char.isDigit
  if ds = [] then .error .invalid_argument
  else
    let v : Int := if neg then -(digits_value ds : Int) else (digits_value ds : Int)
    if v < -2147483648 ∨ 2147483647 < v then .error .out_of_range else .ok v


/-! ## Maps -/

/-- The lookup `m.find(k)` of a `std::unordered_map`: `none` is `m.end()`. -/
def umap_find {κ β : Type} [DecidableEq κ] : List (κ × β) → κ → Option β
  | [], _ => none
  | (k1, v1) :: m, k => if k1 = k then some v1 else umap_find m k

/-- The assignment `m[k] = v` of a `std::unordered_map`: the entry of `k` is overwritten
when there is one and created otherwise. -/
def umap_assign {κ β : Type} [DecidableEq κ] : List (κ × β) → κ → β → List (κ × β)
  | [], k, v => [(k, v)]
  | (k1, v1) :: m, k, v => if k1 = k then (k1, v) :: m else (k1, v1) :: umap_assign m k v


/-! ## The graph -/

/-- The struct `VertexProperties`; `centrality` holds the citation count. -/
structure VertexProperties where
  name : Str
  url : Str
  id : Str
  centrality : Int
  year : Int
  abstract : Str
  deriving DecidableEq

/-- A vertex record before its fields are assigned. -/
def VertexProperties.blank : VertexProperties := ⟨[], [], [], 0, 0, []⟩

/-- The struct `PaperInfo`. -/
structure PaperInfo where
  title : Str
  url : Str
  id : Str
  year : Int
  citationCount : Int
  abstract : Str
  deriving DecidableEq

/-- The type `Graph`: the vertex vector and the directed edges `(source, target)` in
insertion order. As in boost, every edge joins two vertices of the graph. -/
structure Graph where
  vertices : List VertexProperties
  edges : List (Nat × Nat)
  closed : ∀ e ∈ edges, e.1 < vertices.length ∧ e.2 < vertices.length

/-- The graph without vertices. -/
def Graph.empty : Graph := ⟨[], [], by simp⟩

/-- The count `num_vertices(g)`. -/
def num_vertices (g : Graph) : Nat := g.vertices.length

/-- The count `out_degree(v, g)`. -/
def out_degree (v : Nat) (g : Graph) : Nat := (g.edges.filter (fun e => e.1 = v)).length

/-- The boost `add_vertex(g)`: a new last vertex; its descriptor is returned. -/
def add_vertex (g : Graph) : Graph × Nat :=
  (⟨g.vertices ++ [VertexProperties.blank], g.edges, by
      intro e he
      have h := g.closed e he
      simp only [List.length_append, List.length_singleton]
      omega⟩,
   g.vertices.length)

/-- The assignments `g[v].name = ...; ...; g[v].abstract = ...` of all six fields. -/
def set_vertex (g : Graph) (v : Nat) (p : VertexProperties) : Graph :=
  ⟨g.vertices.set v p, g.edges, by
    intro e he
    have h := g.closed e he
    simpa using h⟩

/-- The boost `add_edge(u, v, g)` of a `vecS` graph: the vertex vector grows to hold
both endpoints when it has to, and the edge is appended. -/
def add_edge (u v : Nat) (g : Graph) : Graph :=
  ⟨g.vertices ++ List.replicate (max u v + 1 - g.vertices.length) VertexProperties.blank,
   g.edges ++ [(u, v)], by
    intro e he
    simp only [List.length_append, List.length_replicate]
    rcases List.mem_append.1 he with h | h
    · have h1 := g.closed e h
      omega
    · have h2 : e = (u, v) := by simpa using h
      subst h2
      simp only
      omega⟩

/-- The result of a sum `a + b` of two `int` (32-bit, wraps around). -/
def int_add (a b : Int) : Int := (a + b + 2147483648) % 4294967296 - 2147483648

/-- The global variables of the program; the five counters are `int`. -/
structure State where
  g : Graph
  node_map : List (Str × Nat)
  paper_info_map : List (Str × PaperInfo)
  csv_lines_processed : Int
  csv_lines_skipped : Int
  json_lines_processed : Int
  json_lines_skipped : Int
  citing_nodes_created : Int

/-- The globals when `main` starts. -/
def State.init : State := ⟨Graph.empty, [], [], 0, 0, 0, 0, 0⟩


/-! ## `load_paper_info` -/

/-- One round of the `while (getline(file, line))` loop of `load_paper_info`. -/
def load_paper_line (st : State) (line : Str) : State :=
  let fields := split_csv_line line
  if fields.length < 6 then
    { st with csv_lines_skipped := int_add st.csv_lines_skipped 1 }
  else
    let paperId := fields.getD 0 []
    let url := fields.getD 1 []
    let title_old := escape_dot_string (fields.getD 2 [])
    let title := ReplaceAll title_old [dquote, dquote] [' '] (by simp)
    let year := fields.getD 3 []
    let citationCount := fields.getD 4 []
    let abstract_old := fields.getD 5 []
    let abstract := ReplaceAll abstract_old [newline] [' '] (by simp)
    match stoi year with
    | .error _ => { st with csv_lines_skipped := int_add st.csv_lines_skipped 1 }
    | .ok yearInt =>
      match stoi citationCount with
      | .error _ => { st with csv_lines_skipped := int_add st.csv_lines_skipped 1 }
      | .ok citationCountInt =>
        let info : PaperInfo := ⟨title, url, paperId, yearInt, citationCountInt, abstract⟩
        let gv := add_vertex st.g
        { st with
          paper_info_map := umap_assign st.paper_info_map paperId info
          node_map := umap_assign st.node_map paperId gv.2
          g := set_vertex gv.1 gv.2 ⟨title, url, paperId, citationCountInt, yearInt, abstract⟩
          csv_lines_processed := int_add st.csv_lines_processed 1 }

/-- The function `load_paper_info`. The file is `none` when it cannot be opened, and
otherwise its lines; the first line is the header and is skipped. -/
def load_paper_info (file : Option (List Str)) (st : State) : State :=
  match file with
  | none => st
  | some lines => (lines.drop 1).foldl load_paper_line st


/-! ## `parse_jsonl_file` -/

/-- A rapidjson `Document` after `d.Parse(line)`. A line that is not JSON leaves the
document `null`. `int` is a number written as an integer, `double` any other number. -/
inductive JValue where
  | null
  | bool (b : Bool)
  | int (i : Int)
  | double
  | string (s : Str)
  | array
  | object (members : List (Str × JValue))

/-- The rapidjson `FindMember(name)` on the members of an object: the first member of
that name; `none` is `MemberEnd()`. -/
def FindMember : List (Str × JValue) → Str → Option JValue
  | [], _ => none
  | (k, v) :: ms, name => if k = name then some v else FindMember ms name

/-- The rapidjson `IsInt()` of an integer number: it fits a 32-bit `int`. -/
def IsInt (i : Int) : Bool := decide (-2147483648 ≤ i) && decide (i ≤ 2147483647)

/-- The local variables `parse_jsonl_file` holds for an accepted line. -/
structure CitationEvent where
  citing_paper_id : Str
  cited_paper_id : Str
  cited_paper_title : Str
  cited_paper_year : Int
  cited_paper_citations : Int
  cited_paper_abstract : Str
  deriving DecidableEq

/-- The string a member holds, when the member exists and `IsString()`. -/
def member_string (members : List (Str × JValue)) (name : Str) : Option Str :=
  match FindMember members name with
  | some (.string s) => some s
  | _ => none

/-- The integer a member holds, when the member exists and `IsInt()`. -/
def member_int (members : List (Str × JValue)) (name : Str) : Option Int :=
  match FindMember members name with
  | some (.int i) => if IsInt i then some i else none
  | _ => none

/-- The literal `"unknown"`. -/
def unknown : Str := "unknown".toList

/-- The literal `url_start`. -/
def url_start : Str := "https://www.semanticscholar.org/paper/".toList

/-- The first half of a round of `parse_jsonl_file`: the checks that reject a line
(`none`) and the extraction of the fields of the cited paper with their defaults. -/
def read_event (d : JValue) : Option CitationEvent :=
  match d with
  | .object members =>
    match FindMember members "citingPaperId".toList with
    | some (.string citing_paper_id) =>
      match FindMember members "citedPaper".toList with
      | some (.object citedPaper) =>
        some
          { citing_paper_id := citing_paper_id
            cited_paper_id := (member_string citedPaper "paperId".toList).getD unknown
            cited_paper_title :=
              ((member_string citedPaper "title".toList).map escape_dot_string).getD unknown
            cited_paper_year := (member_int citedPaper "year".toList).getD 0
            cited_paper_citations := (member_int citedPaper "citationCount".toList).getD 0
            cited_paper_abstract :=
              ReplaceAll ((member_string citedPaper "abstract".toList).getD [])
                [newline] [' '] (by simp) }
      | _ => none
    | _ => none
  | _ => none

/-- The vertex record `parse_jsonl_file` writes for a cited paper it does not know. -/
def cited_placeholder (ev : CitationEvent) : VertexProperties :=
  { name := ev.cited_paper_title
    url := url_start ++ ev.cited_paper_id
    id := ev.cited_paper_id
    centrality := ev.cited_paper_citations
    year := ev.cited_paper_year
    abstract := ev.cited_paper_abstract }

/-- The vertex record `parse_jsonl_file` writes for a citing paper it does not know. -/
def citing_placeholder (citing_paper_id : Str) : VertexProperties :=
  { name := citing_paper_id
    url := url_start ++ citing_paper_id
    id := citing_paper_id
    centrality := 0
    year := 0
    abstract := [] }

/-- The first `if` of the locked section: the cited paper gets a vertex when
`node_map` has none for it. -/
def ensure_cited (st : State) (ev : CitationEvent) : State :=
  if umap_find st.node_map ev.cited_paper_id = none then
    let gv := add_vertex st.g
    { st with
      node_map := umap_assign st.node_map ev.cited_paper_id gv.2
      g := set_vertex gv.1 gv.2 (cited_placeholder ev) }
  else st

/-- The second `if` of the locked section: the citing paper gets a vertex when
`node_map` has none for it. -/
def ensure_citing (st : State) (ev : CitationEvent) : State :=
  if umap_find st.node_map ev.citing_paper_id = none then
    let gv := add_vertex st.g
    { st with
      node_map := umap_assign st.node_map ev.citing_paper_id gv.2
      g := set_vertex gv.1 gv.2 (citing_placeholder ev.citing_paper_id)
      citing_nodes_created := int_add st.citing_nodes_created 1 }
  else st

/-- The read `node_map[k]` of a key; both keys read by `add_edge` are present. -/
def node_of (st : State) (k : Str) : Nat := (umap_find st.node_map k).getD 0

/-- The second half of a round of `parse_jsonl_file`: the locked section, which makes
sure both papers have a vertex and appends the edge. -/
def add_citation (st : State) (ev : CitationEvent) : State :=
  let st2 := ensure_citing (ensure_cited st ev) ev
  { st2 with
    g := add_edge (node_of st2 ev.citing_paper_id) (node_of st2 ev.cited_paper_id) st2.g
    json_lines_processed := int_add st2.json_lines_processed 1 }

/-- One round of the `while (getline(ifs, line))` loop of `parse_jsonl_file`. -/
def parse_jsonl_line (st : State) (d : JValue) : State :=
  match read_event d with
  | none => { st with json_lines_skipped := int_add st.json_lines_skipped 1 }
  | some ev => add_citation st ev

/-- The function `parse_jsonl_file`. The file is `none` when it cannot be opened, and
otherwise the documents its lines parse to. -/
def parse_jsonl_file (file : Option (List JValue)) (st : State) : State :=
  match file with
  | none => st
  | some docs => docs.foldl parse_jsonl_line st

/-- The first half of `main`: the graph built from the two input files. -/
def build_graph (csv : Option (List Str)) (jsonl : Option (List JValue)) : State :=
  parse_jsonl_file jsonl (load_paper_info csv State.init)


/-! ## `calculate_pagerank` -/

/-- What ends `calculate_pagerank` before it returns: the assertion of Eigen's
`maxCoeff()` on an empty vector. -/
inductive Hazard where
  | maxCoeff_of_empty
  deriving DecidableEq

/-- The digits of `std::to_string`, most significant first; the first argument bounds
the number of digits. -/
def to_string_digits : Nat → Nat → Str
  | 0, _ => []
  | f + 1, n =>
    if n < 10 then [Char.ofNat (48 + n)]
    else to_string_digits f (n / 10) ++ [Char.ofNat (48 + n % 10)]

/-- The library function `std::to_string` on a vertex descriptor. -/
def to_string (n : Nat) : Str := to_string_digits (n + 1) n

/-- The loop `for (vi) idMapping[*vi] = index++` over the vertices `0 .. N-1`: the table
and the next index. -/
def idMapping_loop (N : Nat) : List (Nat × Nat) × Nat :=
  (List.range N).foldl (fun mi v => (umap_assign mi.1 v mi.2, mi.2 + 1)) ([], 0)

/-- The table `idMapping` of `calculate_pagerank`. -/
def idMapping (g : Graph) : List (Nat × Nat) := (idMapping_loop (num_vertices g)).1

/-- The read `idMapping[v]`. -/
def mapped (g : Graph) (v : Nat) : Nat := (umap_find (idMapping g) v).getD 0

/-- The variable `maxCitations`. -/
def maxCitations (g : Graph) : Int := g.vertices.foldl (fun m p => max m p.centrality) 0

/-- A `double`: a number of the ordered field `K`, or +inf, -inf or NaN. -/
inductive Dbl (K : Type) where
  | fin (x : K)
  | pinf
  | ninf
  | nan
  deriving DecidableEq

section Arithmetic

variable {K : Type} [LinearOrderedField K]

/-- The constant `DAMPING_FACTOR`. -/
def DAMPING_FACTOR : K := 99 / 100

/-- The constant `MAX_ITERATIONS`. -/
def MAX_ITERATIONS : Nat := 100

/-- The constant `CONVERGENCE_THRESHOLD`. -/
def CONVERGENCE_THRESHOLD : K := 1 / 1000000000

/-- The constant `MIN_DANGLING_CONTRIBUTION`. -/
def MIN_DANGLING_CONTRIBUTION : K := 1 / 1000000000

/-- The sum `a + b` of two `double`: NaN stays NaN and +inf plus -inf is NaN. -/
def Dbl.add : Dbl K → Dbl K → Dbl K
  | .nan, _ => .nan
  | .fin _, .nan => .nan
  | .pinf, .nan => .nan
  | .ninf, .nan => .nan
  | .fin a, .fin b => .fin (a + b)
  | .fin _, .pinf => .pinf
  | .fin _, .ninf => .ninf
  | .pinf, .fin _ => .pinf
  | .pinf, .pinf => .pinf
  | .pinf, .ninf => .nan
  | .ninf, .fin _ => .ninf
  | .ninf, .pinf => .nan
  | .ninf, .ninf => .ninf

/-- The negation `-a` of a `double`. -/
def Dbl.neg : Dbl K → Dbl K
  | .fin a => .fin (-a)
  | .pinf => .ninf
  | .ninf => .pinf
  | .nan => .nan

/-- The difference `a - b` of two `double`. -/
def Dbl.sub (a b : Dbl K) : Dbl K := Dbl.add a (Dbl.neg b)

/-- The product of an infinity (positive when `positive`) and the number `a`: the
infinity of the product of the signs, NaN for `a = 0`. -/
def Dbl.scale_inf (positive : Bool) (a : K) : Dbl K :=
  if 0 < a then (if positive then .pinf else .ninf)
  else if a < 0 then (if positive then .ninf else .pinf)
  else .nan

/-- The product `a * b` of two `double`. -/
def Dbl.mul : Dbl K → Dbl K → Dbl K
  | .nan, _ => .nan
  | .fin _, .nan => .nan
  | .pinf, .nan => .nan
  | .ninf, .nan => .nan
  | .fin a, .fin b => .fin (a * b)
  | .fin a, .pinf => Dbl.scale_inf true a
  | .fin a, .ninf => Dbl.scale_inf false a
  | .pinf, .fin b => Dbl.scale_inf true b
  | .ninf, .fin b => Dbl.scale_inf false b
  | .pinf, .pinf => .pinf
  | .pinf, .ninf => .ninf
  | .ninf, .pinf => .ninf
  | .ninf, .ninf => .pinf

/-- The quotient `a / b` of two `double`: a number by zero is an infinity of its sign,
zero by zero and infinity by infinity are NaN, a number by an infinity is zero. The zero
of `K` stands for the positive zero. -/
def Dbl.div : Dbl K → Dbl K → Dbl K
  | .nan, _ => .nan
  | .fin _, .nan => .nan
  | .pinf, .nan => .nan
  | .ninf, .nan => .nan
  | .fin a, .fin b => if b = 0 then Dbl.scale_inf true a else .fin (a / b)
  | .fin _, .pinf => .fin 0
  | .fin _, .ninf => .fin 0
  | .pinf, .fin b => if b < 0 then .ninf else .pinf
  | .ninf, .fin b => if b < 0 then .pinf else .ninf
  | .pinf, .pinf => .nan
  | .pinf, .ninf => .nan
  | .ninf, .pinf => .nan
  | .ninf, .ninf => .nan

/-- The comparison `a < b` of two `double`: false when either is NaN. -/
def Dbl.lt : Dbl K → Dbl K → Bool
  | .nan, _ => false
  | .fin _, .nan => false
  | .pinf, .nan => false
  | .ninf, .nan => false
  | .fin a, .fin b => decide (a < b)
  | .fin _, .pinf => true
  | .fin _, .ninf => false
  | .pinf, _ => false
  | .ninf, .fin _ => true
  | .ninf, .pinf => true
  | .ninf, .ninf => false

/-- The library function `std::max(a, b)`, which is `(a < b) ? b : a`. -/
def Dbl.max (a b : Dbl K) : Dbl K := if Dbl.lt a b then b else a

/-- A call `log(x)` on an `int` converted to `double`: -inf at 0, NaN below 0. -/
def Dbl.log (log : K → K) (x : Int) : Dbl K :=
  if 0 < x then .fin (log (x : K)) else if x = 0 then .ninf else .nan

/-- A call `sqrt(x)`: NaN below 0. -/
def Dbl.sqrt (sqrt : K → K) : Dbl K → Dbl K
  | .fin x => if x < 0 then .nan else .fin (sqrt x)
  | .pinf => .pinf
  | .ninf => .nan
  | .nan => .nan

/-- The Eigen `v.sum()`; the sum of no coefficient is 0. -/
def vec_sum (v : List (Dbl K)) : Dbl K := v.foldl Dbl.add (.fin 0)

/-- The Eigen `v /= s` on a dense vector: one division per coefficient. -/
def vec_div (v : List (Dbl K)) (s : Dbl K) : List (Dbl K) := v.map (fun x => Dbl.div x s)

/-- The Eigen `v.maxCoeff()`: its assertion fails on an empty vector; the coefficients
are reduced with `std::max`. -/
def maxCoeff : List (Dbl K) → Except Hazard (Dbl K)
  | [] => .error .maxCoeff_of_empty
  | x :: xs => .ok (xs.foldl Dbl.max x)

/-- The Eigen `setFromTriplets`: the stored entries `((row, col), value)`; triplets of
the same position are summed. The values are sums of the constant 1.0 and stay in `K`. -/
def setFromTriplets (triplets : List (Nat × Nat × K)) : List ((Nat × Nat) × K) :=
  triplets.foldl
    (fun m t => umap_assign m (t.1, t.2.1) ((umap_find m (t.1, t.2.1)).getD 0 + t.2.2)) []

/-- The Eigen product of a sparse matrix with `numNodes` rows and a dense vector: row `i`
of the result sums `value * x[col]` over the stored entries of row `i`, and only these
coefficients of `x` are read. -/
def sparse_mul (numNodes : Nat) (A : List ((Nat × Nat) × K)) (x : List (Dbl K)) :
    List (Dbl K) :=
  (List.range numNodes).map
    (fun i => vec_sum ((A.filter (fun e => e.1.1 = i)).map
      (fun e => Dbl.mul (.fin e.2) (x.getD e.1.2 (.fin 0)))))

/-- The variable `tripletList`. -/
def tripletList (g : Graph) : List (Nat × Nat × K) :=
  g.edges.map (fun e => (mapped g e.1, mapped g e.2, (1 : K)))

/-- The variable `adjacencyMatrix`. -/
def adjacencyMatrix (g : Graph) : List ((Nat × Nat) × K) :=
  setFromTriplets (tripletList g)

/-- A loop `for (vi) vec[idMapping[*vi]] = vals[*vi]` over the vertices. -/
def scatter (g : Graph) (vec vals : List (Dbl K)) : List (Dbl K) :=
  (List.range (num_vertices g)).foldl
    (fun r v => r.set (mapped g v) (vals.getD v (.fin 0))) vec

/-- The value `normalizedCitation` of a vertex:
`log(centrality + 1) / log(maxCitations + 1)`, both sums in `int`. -/
def normalizedCitation (log : K → K) (g : Graph) (p : VertexProperties) : Dbl K :=
  Dbl.div (Dbl.log log (int_add p.centrality 1)) (Dbl.log log (int_add (maxCitations g) 1))

/-- The initialisation of `ranks`: the citation bias of every vertex, then the division
of the vector by its sum. -/
def pagerank_init (log : K → K) (g : Graph) : List (Dbl K) :=
  let ranks := scatter g (List.replicate (num_vertices g) (.fin 0))
    (g.vertices.map (normalizedCitation log g))
  vec_div ranks (vec_sum ranks)

/-- The vector `danglingNodes`; its coefficients are the constants 0.0 and 1.0 and stay
in `K`. -/
def danglingNodes (g : Graph) : List K :=
  (List.range (num_vertices g)).foldl
    (fun r v => if out_degree v g = 0 then r.set (mapped g v) 1 else r)
    (List.replicate (num_vertices g) 0)

/-- The scalar `(1 - DAMPING_FACTOR) / numNodes` of an iteration. -/
def teleport (g : Graph) : Dbl K :=
  Dbl.div (.fin (1 - DAMPING_FACTOR)) (.fin (num_vertices g : K))

/-- The vector `newRanks` of an iteration before it is divided by its sum. -/
def pagerank_update (g : Graph) (oldRanks : List (Dbl K)) : List (Dbl K) :=
  let danglingContribution : K := MIN_DANGLING_CONTRIBUTION * (danglingNodes g).sum
  (sparse_mul (num_vertices g) (adjacencyMatrix g) oldRanks).map
    (fun a => Dbl.add
      (Dbl.mul (.fin DAMPING_FACTOR) (Dbl.add a (Dbl.mul (.fin danglingContribution) (.fin 1))))
      (Dbl.mul (teleport g) (.fin 1)))

/-- The Eigen `(a - b).norm()`. -/
def diff_norm (sqrt : K → K) (a b : List (Dbl K)) : Dbl K :=
  Dbl.sqrt sqrt (vec_sum (List.zipWith (fun x y => Dbl.mul (Dbl.sub x y) (Dbl.sub x y)) a b))

/-- The iteration loop. The arguments are the number of rounds left, the variable
`iteration`, the vector `ranks` and the `(iteration, diff)` pairs printed so far; the
result is the final `ranks` and everything printed. -/
def pagerank_loop (sqrt : K → K) (g : Graph) :
    Nat → Nat → List (Dbl K) → List (Nat × Dbl K) → List (Dbl K) × List (Nat × Dbl K)
  | 0, _, ranks, printed => (ranks, printed)
  | n + 1, iteration, ranks, printed =>
    let newRanks0 := pagerank_update g ranks
    let newRanks := vec_div newRanks0 (vec_sum newRanks0)
    let diff := diff_norm sqrt newRanks ranks
    if Dbl.lt diff (.fin CONVERGENCE_THRESHOLD) then (newRanks, printed ++ [(iteration, diff)])
    else pagerank_loop sqrt g n (iteration + 1) newRanks (printed ++ [(iteration, diff)])

/-- The loop that stores the results: `pageRanks[to_string(*vi)] = ranks(mappedId) *
scaleFactor` for every vertex. -/
def store_ranks (g : Graph) (ranks : List (Dbl K)) (scaleFactor : Dbl K)
    (pageRanks : List (Str × Dbl K)) : List (Str × Dbl K) :=
  (List.range (num_vertices g)).foldl
    (fun m v => umap_assign m (to_string v)
      (Dbl.mul (ranks.getD (mapped g v) (.fin 0)) scaleFactor)) pageRanks

/-- What a run of `calculate_pagerank` leaves: the map `pageRanks` and the
`(iteration, diff)` pairs it printed. -/
structure PageRankRun (K : Type) where
  pageRanks : List (Str × Dbl K)
  printed : List (Nat × Dbl K)

/-- The function `calculate_pagerank`; `log` and `sqrt` are the library functions and
`pageRanks` is the map passed by reference. -/
def calculate_pagerank (log sqrt : K → K) (g : Graph) (pageRanks : List (Str × Dbl K)) :
    Except Hazard (PageRankRun K) :=
  let looped := pagerank_loop sqrt g MAX_ITERATIONS 0 (pagerank_init log g) []
  match maxCoeff looped.1 with
  | .error h => .error h
  | .ok maxRank =>
    .ok ⟨store_ranks g looped.1 (Dbl.div (.fin 1) maxRank) pageRanks, looped.2⟩

end Arithmetic


/-! ## Predicates and inputs used by the theorems -/

/-- The map `node_map` points every key to a vertex of the graph that stores this key
as its `id`. -/
def State.consistent (st : State) : Prop :=
  ∀ k v, umap_find st.node_map k = some v →
    ∃ p, st.g.vertices[v]? = some p ∧ p.id = k

/-- The test of `load_paper_info` itself: the line has at least 6 fields and `stoi`
throws neither on the year nor on the citation count. -/
def load_accepts (line : Str) : Bool :=
  decide (6 ≤ (split_csv_line line).length)
    && (stoi ((split_csv_line line).getD 3 [])).toBool
    && (stoi ((split_csv_line line).getD 4 [])).toBool

/-- The document is an accepted citation event that cites `X` from an id `node_map`
knows. -/
def cites_from_known (st : State) (X : Str) (d : JValue) : Prop :=
  ∃ ev, read_event d = some ev ∧ ev.cited_paper_id = X
    ∧ umap_find st.node_map ev.citing_paper_id ≠ none

/-- The header line of the metadata file. -/
def csv_header : Str := "paperId,url,title,year,citationCount,abstract".toList

/-- A metadata file with two records of the same id. -/
def csv_same_id_twice : List Str :=
  [csv_header, "p1,u1,First,2001,5,abs1".toList, "p1,u2,Second,2002,7,abs2".toList]

/-- A metadata file with one record. -/
def csv_one_paper : List Str :=
  [csv_header, "p1,u1,First,2001,5,abs1".toList]

/-- A descriptor of the cited paper `q` that gives only its year. -/
def descriptor_q : List (Str × JValue) :=
  [("paperId".toList, .string "q".toList), ("year".toList, .int 1999)]

/-- The members of a citation event in which `p1` cites `q`. -/
def members_p1_cites_q : List (Str × JValue) :=
  [("citingPaperId".toList, .string "p1".toList), ("citedPaper".toList, .object descriptor_q)]

/-- A citation event: `p1` cites `q`, of which only the year is given. -/
def doc_p1_cites_q : JValue := .object members_p1_cites_q

/-- A citation event: `p1` cites `q`, described differently. -/
def doc_p1_cites_q_again : JValue :=
  .object [("citingPaperId".toList, .string "p1".toList),
    ("citedPaper".toList, .object [("paperId".toList, .string "q".toList),
      ("title".toList, .string "Other".toList), ("citationCount".toList, .int 3)])]

/-- The vertex of `p1` after `csv_one_paper`. -/
def vertex_p1 : VertexProperties :=
  ⟨"First".toList, "u1".toList, "p1".toList, 5, 2001, "abs1".toList⟩

/-- The placeholder of `q` after `doc_p1_cites_q`: the year of the descriptor, defaults
for the rest. -/
def vertex_q : VertexProperties :=
  ⟨unknown, url_start ++ "q".toList, "q".toList, 0, 1999, []⟩

/-- What `parse_jsonl_file` reads from `doc_p1_cites_p1`. -/
def event_p1_cites_p1 : CitationEvent :=
  ⟨"p1".toList, "p1".toList, unknown, 0, 0, []⟩

/-- A citation event in which `p1` cites itself. -/
def doc_p1_cites_p1 : JValue :=
  .object [("citingPaperId".toList, .string "p1".toList),
    ("citedPaper".toList, .object [("paperId".toList, .string "p1".toList)])]

/-- A rank vector of the graph: one entry per vertex, no entry negative, sum 1. -/
def rank_vector {K : Type} [LinearOrderedField K] (g : Graph) (r : List K) : Prop :=
  r.length = num_vertices g ∧ (∀ x ∈ r, 0 ≤ x) ∧ r.sum = 1

/-- An accepted citation line: `citing` cites the paper of id `cited`. -/
def citation_doc (citing cited : Str) : JValue :=
  .object [("citingPaperId".toList, .string citing),
    ("citedPaper".toList, .object [("paperId".toList, .string cited)])]

/-- The graph of one paper without citations. -/
def graph_zero_citations : Graph :=
  (build_graph (some [csv_header, "p1,u1,First,2001,0,abs1".toList]) none).g

/-- The graph of an empty metadata file and an empty citation file. -/
def graph_no_input : Graph := (build_graph (some []) (some [])).g

/-- The graph of the papers `A`, `B`, `C` with 10 citations each and the edges
`A -> B`, `B -> C`, `C -> A`. -/
def graph_cycle : Graph :=
  (build_graph
    (some [csv_header, "A,uA,TA,2000,10,absA".toList, "B,uB,TB,2000,10,absB".toList,
      "C,uC,TC,2000,10,absC".toList])
    (some [citation_doc "A".toList "B".toList, citation_doc "B".toList "C".toList,
      citation_doc "C".toList "A".toList])).g

theorem umap_find_assign {κ β : Type} [DecidableEq κ] (m : List (κ × β)) (k k1 : κ) (v : β) :
    umap_find (umap_assign m k v) k1 = if k = k1 then some v else umap_find m k1 := by
  induction m with
  | nil => simp [umap_assign, umap_find]
  | cons e m ih =>
    obtain ⟨k2, v2⟩ := e
    by_cases h : k2 = k
    · subst h
      by_cases h1 : k2 = k1 <;> simp [umap_assign, umap_find, h1]
    · by_cases h1 : k2 = k1
      · subst h1
        have h2 : ¬ k = k2 := fun e => h e.symm
        simp [umap_assign, umap_find, h, h2]
      · simp [umap_assign, umap_find, h, h1, ih]

theorem vertices_set_add_vertex (g : Graph) (p : VertexProperties) :
    (set_vertex (add_vertex g).1 (add_vertex g).2 p).vertices = g.vertices ++ [p] := by
  simp [set_vertex, add_vertex]

theorem edges_set_add_vertex (g : Graph) (p : VertexProperties) :
    (set_vertex (add_vertex g).1 (add_vertex g).2 p).edges = g.edges := rfl

theorem vertices_add_edge (g : Graph) (u v : Nat) (hu : u < g.vertices.length)
    (hv : v < g.vertices.length) : (add_edge u v g).vertices = g.vertices := by
  have h : max u v + 1 - g.vertices.length = 0 := by omega
  simp [add_edge, h]

theorem edges_add_edge (g : Graph) (u v : Nat) : (add_edge u v g).edges = g.edges ++ [(u, v)] := rfl

theorem consistent_init : State.init.consistent := by
  intro k v h
  simp [State.init, umap_find] at h

/-- A vertex added for a key keeps `node_map` consistent. -/
theorem consistent_new_vertex (st : State) (k : Str) (p : VertexProperties) (hp : p.id = k)
    (h : st.consistent) (k1 : Str) (v1 : Nat)
    (h1 : umap_find (umap_assign st.node_map k (add_vertex st.g).2) k1 = some v1) :
    ∃ q, (set_vertex (add_vertex st.g).1 (add_vertex st.g).2 p).vertices[v1]? = some q
      ∧ q.id = k1 := by
  rw [vertices_set_add_vertex]
  rw [umap_find_assign] at h1
  by_cases hk : k = k1
  · rw [if_pos hk] at h1
    have hv : v1 = st.g.vertices.length := by
      have := Option.some.inj h1
      simpa [add_vertex] using this.symm
    subst hv
    exact ⟨p, by simp, hk ▸ hp⟩
  · rw [if_neg hk] at h1
    obtain ⟨q, hq, hid⟩ := h k1 v1 h1
    have hlt : v1 < st.g.vertices.length := by
      by_contra hge
      rw [List.getElem?_eq_none (by omega)] at hq
      exact Option.noConfusion hq
    exact ⟨q, by rw [List.getElem?_append_left hlt]; exact hq, hid⟩

theorem consistent_load_paper_line (st : State) (line : Str) (h : st.consistent) :
    (load_paper_line st line).consistent := by
  unfold load_paper_line
  simp only
  split
  · exact h
  · split
    · exact h
    · split
      · exact h
      · intro k1 v1 h1
        exact consistent_new_vertex st _ _ rfl h k1 v1 h1

theorem consistent_foldl_load (lines : List Str) (st : State) (h : st.consistent) :
    (lines.foldl load_paper_line st).consistent := by
  induction lines generalizing st with
  | nil => exact h
  | cons l ls ih => exact ih _ (consistent_load_paper_line st l h)

theorem consistent_load_paper_info (file : Option (List Str)) (st : State) (h : st.consistent) :
    (load_paper_info file st).consistent := by
  cases file with
  | none => exact h
  | some lines => exact consistent_foldl_load _ st h

theorem consistent_ensure_cited (st : State) (ev : CitationEvent) (h : st.consistent) :
    (ensure_cited st ev).consistent := by
  unfold ensure_cited
  split
  · intro k1 v1 h1
    exact consistent_new_vertex st _ _ rfl h k1 v1 h1
  · exact h

theorem consistent_ensure_citing (st : State) (ev : CitationEvent) (h : st.consistent) :
    (ensure_citing st ev).consistent := by
  unfold ensure_citing
  split
  · intro k1 v1 h1
    exact consistent_new_vertex st _ _ rfl h k1 v1 h1
  · exact h

/-- In a consistent state a key that `node_map` knows is read as a vertex of the graph
whose `id` is the key. -/
theorem node_of_spec (st : State) (h : st.consistent) (k : Str)
    (hk : umap_find st.node_map k ≠ none) :
    umap_find st.node_map k = some (node_of st k) ∧ node_of st k < st.g.vertices.length
      ∧ (st.g.vertices[node_of st k]?).map VertexProperties.id = some k := by
  obtain ⟨v, hv⟩ := Option.ne_none_iff_exists'.1 hk
  obtain ⟨p, hp, hid⟩ := h k v hv
  have hn : node_of st k = v := by simp [node_of, hv]
  rw [hn]
  refine ⟨hv, ?_, by simp [hp, hid]⟩
  by_contra hge
  rw [List.getElem?_eq_none (by omega)] at hp
  exact Option.noConfusion hp

theorem cited_known_after (st : State) (ev : CitationEvent) :
    umap_find (ensure_cited st ev).node_map ev.cited_paper_id ≠ none := by
  unfold ensure_cited
  split
  · simp [umap_find_assign]
  · assumption

theorem citing_known_after (st : State) (ev : CitationEvent) :
    umap_find (ensure_citing st ev).node_map ev.citing_paper_id ≠ none := by
  unfold ensure_citing
  split
  · simp [umap_find_assign]
  · assumption

/-- The second `if` keeps every key known that was known before it. -/
theorem known_ensure_citing (st : State) (ev : CitationEvent) (k : Str)
    (hk : umap_find st.node_map k ≠ none) :
    umap_find (ensure_citing st ev).node_map k ≠ none := by
  unfold ensure_citing
  split
  · rw [umap_find_assign]
    split
    · simp
    · exact hk
  · exact hk

theorem edges_ensure_cited (st : State) (ev : CitationEvent) :
    (ensure_cited st ev).g.edges = st.g.edges := by
  unfold ensure_cited
  split <;> rfl

theorem edges_ensure_citing (st : State) (ev : CitationEvent) :
    (ensure_citing st ev).g.edges = st.g.edges := by
  unfold ensure_citing
  split <;> rfl

theorem ensure_cited_known (st : State) (ev : CitationEvent)
    (h : umap_find st.node_map ev.cited_paper_id ≠ none) : ensure_cited st ev = st := by
  unfold ensure_cited
  rw [if_neg h]

theorem ensure_citing_known (st : State) (ev : CitationEvent)
    (h : umap_find st.node_map ev.citing_paper_id ≠ none) : ensure_citing st ev = st := by
  unfold ensure_citing
  rw [if_neg h]

theorem node_map_add_citation (st : State) (ev : CitationEvent) :
    (add_citation st ev).node_map = (ensure_citing (ensure_cited st ev) ev).node_map := rfl

/-- What the locked section does in a consistent state: no vertex beyond the two
`if`s, one more edge between the vertices of the two ids. -/
theorem add_citation_spec (st : State) (ev : CitationEvent) (h : st.consistent) :
    (add_citation st ev).consistent
    ∧ (add_citation st ev).g.vertices = (ensure_citing (ensure_cited st ev) ev).g.vertices
    ∧ (add_citation st ev).g.edges = st.g.edges ++
        [(node_of (add_citation st ev) ev.citing_paper_id,
          node_of (add_citation st ev) ev.cited_paper_id)]
    ∧ umap_find (add_citation st ev).node_map ev.citing_paper_id ≠ none
    ∧ umap_find (add_citation st ev).node_map ev.cited_paper_id ≠ none := by
  have h2 : (ensure_citing (ensure_cited st ev) ev).consistent :=
    consistent_ensure_citing _ ev (consistent_ensure_cited st ev h)
  have hc1 := citing_known_after (ensure_cited st ev) ev
  have hc2 := known_ensure_citing (ensure_cited st ev) ev _ (cited_known_after st ev)
  obtain ⟨_, hs, _⟩ := node_of_spec _ h2 _ hc1
  obtain ⟨_, ht, _⟩ := node_of_spec _ h2 _ hc2
  have hv : (add_citation st ev).g.vertices
      = (ensure_citing (ensure_cited st ev) ev).g.vertices :=
    vertices_add_edge _ _ _ hs ht
  refine ⟨?_, hv, ?_, hc1, hc2⟩
  · intro k v hk
    obtain ⟨p, hp, hid⟩ := h2 k v hk
    exact ⟨p, by rw [hv]; exact hp, hid⟩
  · show (add_edge _ _ _).edges = _
    rw [edges_add_edge, edges_ensure_citing, edges_ensure_cited]
    rfl

theorem consistent_parse_jsonl_line (st : State) (d : JValue) (h : st.consistent) :
    (parse_jsonl_line st d).consistent := by
  unfold parse_jsonl_line
  split
  · exact h
  · exact (add_citation_spec st _ h).1

theorem consistent_foldl_parse (docs : List JValue) (st : State) (h : st.consistent) :
    (docs.foldl parse_jsonl_line st).consistent := by
  induction docs generalizing st with
  | nil => exact h
  | cons d ds ih => exact ih _ (consistent_parse_jsonl_line st d h)

/-- Every state the ingestion reaches is consistent. -/
theorem consistent_build_graph (csv : Option (List Str)) (jsonl : Option (List JValue)) :
    (build_graph csv jsonl).consistent := by
  unfold build_graph parse_jsonl_file
  cases jsonl with
  | none => exact consistent_load_paper_info csv _ consistent_init
  | some docs => exact consistent_foldl_parse docs _ (consistent_load_paper_info csv _ consistent_init)

/-- A citation between two known ids adds no vertex and leaves `node_map` as it is. -/
theorem add_citation_known (st : State) (ev : CitationEvent) (h : st.consistent)
    (h1 : umap_find st.node_map ev.cited_paper_id ≠ none)
    (h2 : umap_find st.node_map ev.citing_paper_id ≠ none) :
    (add_citation st ev).g.vertices = st.g.vertices
    ∧ (add_citation st ev).node_map = st.node_map := by
  have hv := (add_citation_spec st ev h).2.1
  rw [node_map_add_citation, hv, ensure_cited_known st ev h1, ensure_citing_known st ev h2]
  exact ⟨rfl, rfl⟩

/-- The first citation of an unknown id from a known one adds exactly the placeholder
of the cited paper. -/
theorem add_citation_unknown_cited (st : State) (ev : CitationEvent) (h : st.consistent)
    (h1 : umap_find st.node_map ev.cited_paper_id = none)
    (h2 : umap_find st.node_map ev.citing_paper_id ≠ none) :
    (add_citation st ev).g.vertices = st.g.vertices ++ [cited_placeholder ev]
    ∧ (add_citation st ev).node_map
        = umap_assign st.node_map ev.cited_paper_id (num_vertices st.g) := by
  have hv := (add_citation_spec st ev h).2.1
  have hk : umap_find (ensure_cited st ev).node_map ev.citing_paper_id ≠ none := by
    unfold ensure_cited
    rw [if_pos h1]
    simp only [umap_find_assign]
    split
    · simp
    · exact h2
  rw [node_map_add_citation, hv, ensure_citing_known _ ev hk]
  unfold ensure_cited
  rw [if_pos h1]
  exact ⟨vertices_set_add_vertex _ _, rfl⟩


/-! ## Theorems: citation events (C2, C3) -/

/-- Later citations between known ids change neither the vertices nor `node_map`. -/
theorem foldl_parse_known (ds : List JValue) (s : State) (h : s.consistent)
    (hall : ∀ d ∈ ds, ∃ ev, read_event d = some ev
      ∧ umap_find s.node_map ev.cited_paper_id ≠ none
      ∧ umap_find s.node_map ev.citing_paper_id ≠ none) :
    (ds.foldl parse_jsonl_line s).g.vertices = s.g.vertices
    ∧ (ds.foldl parse_jsonl_line s).node_map = s.node_map := by
  induction ds generalizing s with
  | nil => exact ⟨rfl, rfl⟩
  | cons d ds ih =>
    obtain ⟨ev, hev, h1, h2⟩ := hall d (List.mem_cons_self _ _)
    have hstep : parse_jsonl_line s d = add_citation s ev := by
      unfold parse_jsonl_line
      rw [hev]
    obtain ⟨hv, hm⟩ := add_citation_known s ev h h1 h2
    have hcons : (parse_jsonl_line s d).consistent := consistent_parse_jsonl_line s d h
    rw [List.foldl_cons]
    have := ih (parse_jsonl_line s d) hcons (by
      intro d1 hd1
      obtain ⟨ev1, he1, ha, hb⟩ := hall d1 (List.mem_cons_of_mem _ hd1)
      refine ⟨ev1, he1, ?_, ?_⟩
      · rw [hstep, hm]; exact ha
      · rw [hstep, hm]; exact hb)
    rw [this.1, this.2, hstep, hv, hm]
    exact ⟨rfl, rfl⟩

/-- The documented defaults: a cited paper described by an empty object is read with
the id and the title `unknown`, year 0, citation count 0 and an empty abstract. -/
theorem read_event_defaults (citing_paper_id : Str) (rest : List (Str × JValue)) :
    read_event (.object (("citingPaperId".toList, .string citing_paper_id)
        :: ("citedPaper".toList, .object []) :: rest))
      = some ⟨citing_paper_id, unknown, unknown, 0, 0, []⟩ := by
  rfl

/-- What `read_event` makes of an object with a string `citingPaperId` and an object
`citedPaper`: each field of the cited paper is the member of that name when it has the
right type, and the documented default otherwise. -/
theorem read_event_of_members (members cp : List (Str × JValue)) (citing : Str)
    (hciting : FindMember members "citingPaperId".toList = some (.string citing))
    (hcp : FindMember members "citedPaper".toList = some (.object cp)) :
    read_event (.object members) = some
      { citing_paper_id := citing
        cited_paper_id :=
          match FindMember cp "paperId".toList with
          | some (.string s) => s
          | _ => "unknown".toList
        cited_paper_title :=
          match FindMember cp "title".toList with
          | some (.string s) => escape_dot_string s
          | _ => "unknown".toList
        cited_paper_year :=
          match FindMember cp "year".toList with
          | some (.int i) => if -2147483648 ≤ i ∧ i ≤ 2147483647 then i else 0
          | _ => 0
        cited_paper_citations :=
          match FindMember cp "citationCount".toList with
          | some (.int i) => if -2147483648 ≤ i ∧ i ≤ 2147483647 then i else 0
          | _ => 0
        cited_paper_abstract :=
          ReplaceAll
            (match FindMember cp "abstract".toList with
              | some (.string s) => s
              | _ => [])
            [newline] [' '] (by simp) } := by
  have hint : ∀ name : Str, (member_int cp name).getD 0
      = match FindMember cp name with
        | some (.int i) => if -2147483648 ≤ i ∧ i ≤ 2147483647 then i else 0
        | _ => 0 := by
    intro name
    unfold member_int
    cases h : FindMember cp name with
    | none => rfl
    | some v =>
      cases v with
      | int i =>
        by_cases hi : -2147483648 ≤ i ∧ i ≤ 2147483647
        · have : IsInt i = true := by simp [IsInt, hi.1, hi.2]
          simp [this, hi]
        · have : IsInt i = false := by
            simp only [IsInt, Bool.and_eq_false_iff, decide_eq_false_iff_not]
            by_cases h1 : -2147483648 ≤ i
            · right; exact fun h2 => hi ⟨h1, h2⟩
            · left; exact h1
          simp [this, hi]
      | _ => rfl
  have hstr : ∀ name : Str, member_string cp name
      = match FindMember cp name with
        | some (.string s) => some s
        | _ => none := fun _ => rfl
  unfold read_event
  simp only [hciting, hcp, hint, hstr, unknown]
  congr 2
  · cases FindMember cp "paperId".toList with
    | none => rfl
    | some v => cases v <;> rfl
  · cases FindMember cp "title".toList with
    | none => rfl
    | some v => cases v <;> rfl
  · cases FindMember cp "abstract".toList with
    | none => rfl
    | some v => cases v <;> rfl

/-- In a state the ingestion has reached, the first accepted event that cites an unknown
id `X` from a known id appends the placeholder built from what `read_event` read, and
later such events add no vertex and leave the vertex of `X` as it is. -/
theorem unknown_cited_id_core (csv : Option (List Str))
    (jsonl : Option (List JValue)) (X : Str) (d0 : JValue) (ds : List JValue)
    (ev0 : CitationEvent)
    (hX : umap_find (build_graph csv jsonl).node_map X = none)
    (h0 : read_event d0 = some ev0)
    (hall : ∀ d ∈ d0 :: ds, cites_from_known (build_graph csv jsonl) X d) :
    (parse_jsonl_line (build_graph csv jsonl) d0).g.vertices
        = (build_graph csv jsonl).g.vertices ++ [cited_placeholder ev0]
    ∧ (cited_placeholder ev0).id = X
    ∧ (cited_placeholder ev0).url = url_start ++ X
    ∧ umap_find (parse_jsonl_line (build_graph csv jsonl) d0).node_map X
        = some (num_vertices (build_graph csv jsonl).g)
    ∧ (ds.foldl parse_jsonl_line (parse_jsonl_line (build_graph csv jsonl) d0)).g.vertices
        = (parse_jsonl_line (build_graph csv jsonl) d0).g.vertices
    ∧ umap_find (ds.foldl parse_jsonl_line
          (parse_jsonl_line (build_graph csv jsonl) d0)).node_map X
        = some (num_vertices (build_graph csv jsonl).g)
    ∧ num_vertices (ds.foldl parse_jsonl_line (parse_jsonl_line (build_graph csv jsonl) d0)).g
        = num_vertices (build_graph csv jsonl).g + 1 := by
  have hc := consistent_build_graph csv jsonl
  obtain ⟨ev, hev, hcited, hciting⟩ := hall d0 (List.mem_cons_self _ _)
  rw [h0] at hev
  have hev' : ev0 = ev := Option.some.inj hev
  subst hev'
  have hstep : parse_jsonl_line (build_graph csv jsonl) d0
      = add_citation (build_graph csv jsonl) ev0 := by
    unfold parse_jsonl_line
    rw [h0]
  have hX' : umap_find (build_graph csv jsonl).node_map ev0.cited_paper_id = none := by
    rw [hcited]; exact hX
  obtain ⟨hv, hm⟩ := add_citation_unknown_cited _ ev0 hc hX' hciting
  have hfindX : umap_find (parse_jsonl_line (build_graph csv jsonl) d0).node_map X
      = some (num_vertices (build_graph csv jsonl).g) := by
    rw [hstep, hm, umap_find_assign, if_pos hcited]
  have hrest := foldl_parse_known ds (parse_jsonl_line (build_graph csv jsonl) d0)
    (consistent_parse_jsonl_line _ d0 hc) (by
      intro d hd
      obtain ⟨ev1, he1, hc1, hk1⟩ := hall d (List.mem_cons_of_mem _ hd)
      refine ⟨ev1, he1, ?_, ?_⟩
      · rw [hc1, hfindX]; simp
      · rw [hstep, hm, umap_find_assign]
        split
        · simp
        · exact hk1)
  refine ⟨by rw [hstep]; exact hv, hcited, by rw [← hcited]; rfl, hfindX, hrest.1, ?_, ?_⟩
  · rw [hrest.2]; exact hfindX
  · unfold num_vertices
    rw [hrest.1, hstep, hv]
    simp

/-- C2: in a state the ingestion has reached, the first accepted event that cites an
unknown id `X` from a known id adds exactly one vertex, the placeholder of `X`: its
title is the escaped `title` of the descriptor or `unknown`, its url is `url_start + X`,
its citation count and year are the `int` members `citationCount` and `year` or 0, its
abstract is the `abstract` of the descriptor with line feeds replaced by spaces, or
empty; `X` itself is the member `paperId` or `unknown`. Later such events, whatever
their descriptor, add no vertex and leave every vertex record and the vertex of `X` as
they are: the count grows by exactly one. -/
theorem C2_unknown_cited_id_one_placeholder (csv : Option (List Str))
    (jsonl : Option (List JValue)) (X : Str) (members cp : List (Str × JValue))
    (citing : Str) (ds : List JValue)
    (hX : umap_find (build_graph csv jsonl).node_map X = none)
    (hciting : FindMember members "citingPaperId".toList = some (.string citing))
    (hcp : FindMember members "citedPaper".toList = some (.object cp))
    (hall : ∀ d ∈ JValue.object members :: ds, cites_from_known (build_graph csv jsonl) X d) :
    (parse_jsonl_line (build_graph csv jsonl) (.object members)).g.vertices
        = (build_graph csv jsonl).g.vertices ++
          [{ name :=
               match FindMember cp "title".toList with
               | some (.string s) => escape_dot_string s
               | _ => "unknown".toList
             url := "https://www.semanticscholar.org/paper/".toList ++ X
             id := X
             centrality :=
               match FindMember cp "citationCount".toList with
               | some (.int i) => if -2147483648 ≤ i ∧ i ≤ 2147483647 then i else 0
               | _ => 0
             year :=
               match FindMember cp "year".toList with
               | some (.int i) => if -2147483648 ≤ i ∧ i ≤ 2147483647 then i else 0
               | _ => 0
             abstract :=
               ReplaceAll
                 (match FindMember cp "abstract".toList with
                   | some (.string s) => s
                   | _ => [])
                 [newline] [' '] (by simp) }]
    ∧ X = (match FindMember cp "paperId".toList with
            | some (.string s) => s
            | _ => "unknown".toList)
    ∧ umap_find (parse_jsonl_line (build_graph csv jsonl) (.object members)).node_map X
        = some (num_vertices (build_graph csv jsonl).g)
    ∧ (ds.foldl parse_jsonl_line
          (parse_jsonl_line (build_graph csv jsonl) (.object members))).g.vertices
        = (parse_jsonl_line (build_graph csv jsonl) (.object members)).g.vertices
    ∧ umap_find (ds.foldl parse_jsonl_line
          (parse_jsonl_line (build_graph csv jsonl) (.object members))).node_map X
        = some (num_vertices (build_graph csv jsonl).g)
    ∧ num_vertices (ds.foldl parse_jsonl_line
          (parse_jsonl_line (build_graph csv jsonl) (.object members))).g
        = num_vertices (build_graph csv jsonl).g + 1 := by
  have h0 := read_event_of_members members cp citing hciting hcp
  obtain ⟨h1, h2, _, h4, h5, h6, h7⟩ :=
    unknown_cited_id_core csv jsonl X (.object members) ds _ hX h0 hall
  refine ⟨?_, h2.symm, h4, h5, h6, h7⟩
  have h2a := h2
  simp only [cited_placeholder] at h2a
  rw [h1]
  simp only [cited_placeholder, url_start, h2a]

/-- C2 at a concrete input: after one metadata record `p1`, two events in which `p1`
cites the unknown `q`; the first gives only the year 1999, the second another title and
a citation count. The graph then holds `p1` and the placeholder of `q` with the year
1999 and the defaults. -/
theorem C2_unknown_cited_id_one_placeholder_witness :
    umap_find (build_graph (some csv_one_paper) none).node_map "q".toList = none
    ∧ (∀ d ∈ [doc_p1_cites_q, doc_p1_cites_q_again],
        cites_from_known (build_graph (some csv_one_paper) none) "q".toList d)
    ∧ (parse_jsonl_line (build_graph (some csv_one_paper) none) doc_p1_cites_q).g.vertices
        = [vertex_p1, vertex_q]
    ∧ ([doc_p1_cites_q_again].foldl parse_jsonl_line
        (parse_jsonl_line (build_graph (some csv_one_paper) none) doc_p1_cites_q)).g.vertices
        = [vertex_p1, vertex_q]
    ∧ num_vertices ([doc_p1_cites_q_again].foldl parse_jsonl_line
        (parse_jsonl_line (build_graph (some csv_one_paper) none) doc_p1_cites_q)).g
        = num_vertices (build_graph (some csv_one_paper) none).g + 1 :=
  have hall : ∀ d ∈ [doc_p1_cites_q, doc_p1_cites_q_again],
      cites_from_known (build_graph (some csv_one_paper) none) "q".toList d := by
    intro d hd
    rcases List.mem_cons.1 hd with h | h
    · subst h; exact ⟨_, rfl, by decide, by decide⟩
    · rw [List.mem_singleton.1 h]; exact ⟨_, rfl, by decide, by decide⟩
  ⟨by decide, hall, by decide, by decide,
   (C2_unknown_cited_id_one_placeholder (some csv_one_paper) none "q".toList
      members_p1_cites_q descriptor_q "p1".toList [doc_p1_cites_q_again] (by decide) rfl rfl
      hall).2.2.2.2.2⟩

/-- C3: in a state the ingestion has reached, an accepted event appends exactly one
edge after the earlier ones; its source and target are the vertices `node_map` gives for
the citing and the cited id, they are vertices of the graph and store these ids; every
edge joins vertices of the graph; and the same event once more appends the same edge
once more. -/
theorem C3_citation_appends_one_edge (csv : Option (List Str)) (jsonl : Option (List JValue))
    (d : JValue) (ev : CitationEvent) (hd : read_event d = some ev) :
    ∃ s t,
      (parse_jsonl_line (build_graph csv jsonl) d).g.edges
        = (build_graph csv jsonl).g.edges ++ [(s, t)]
      ∧ umap_find (parse_jsonl_line (build_graph csv jsonl) d).node_map ev.citing_paper_id
          = some s
      ∧ umap_find (parse_jsonl_line (build_graph csv jsonl) d).node_map ev.cited_paper_id
          = some t
      ∧ s < num_vertices (parse_jsonl_line (build_graph csv jsonl) d).g
      ∧ t < num_vertices (parse_jsonl_line (build_graph csv jsonl) d).g
      ∧ ((parse_jsonl_line (build_graph csv jsonl) d).g.vertices[s]?).map VertexProperties.id
          = some ev.citing_paper_id
      ∧ ((parse_jsonl_line (build_graph csv jsonl) d).g.vertices[t]?).map VertexProperties.id
          = some ev.cited_paper_id
      ∧ (∀ e ∈ (parse_jsonl_line (build_graph csv jsonl) d).g.edges,
          e.1 < num_vertices (parse_jsonl_line (build_graph csv jsonl) d).g
          ∧ e.2 < num_vertices (parse_jsonl_line (build_graph csv jsonl) d).g)
      ∧ (parse_jsonl_line (parse_jsonl_line (build_graph csv jsonl) d) d).g.edges
        = (build_graph csv jsonl).g.edges ++ [(s, t), (s, t)] := by
  have hc := consistent_build_graph csv jsonl
  have hstep : ∀ s : State, parse_jsonl_line s d = add_citation s ev := by
    intro s
    unfold parse_jsonl_line
    rw [hd]
  rw [hstep, hstep]
  obtain ⟨hc1, _, he1, hk1, hk2⟩ := add_citation_spec (build_graph csv jsonl) ev hc
  obtain ⟨hfs, hs, hsid⟩ := node_of_spec _ hc1 _ hk1
  obtain ⟨hft, ht, htid⟩ := node_of_spec _ hc1 _ hk2
  obtain ⟨_, _, he2, _, _⟩ := add_citation_spec (add_citation (build_graph csv jsonl) ev) ev hc1
  obtain ⟨_, hm2⟩ := add_citation_known (add_citation (build_graph csv jsonl) ev) ev hc1 hk2 hk1
  refine ⟨_, _, he1, hfs, hft, hs, ht, hsid, htid,
    (add_citation (build_graph csv jsonl) ev).g.closed, ?_⟩
  rw [he2, he1]
  simp only [node_of, hm2, List.append_assoc, List.singleton_append]

/-- C3 at a concrete input: after one metadata record `p1`, an event in which `p1`
cites itself; the edge is the loop at vertex 0, and a second time it is there twice. -/
theorem C3_citation_appends_one_edge_witness :
    read_event doc_p1_cites_p1 = some event_p1_cites_p1
    ∧ (parse_jsonl_line (build_graph (some csv_one_paper) none) doc_p1_cites_p1).g.edges
        = [(0, 0)]
    ∧ (parse_jsonl_line (parse_jsonl_line (build_graph (some csv_one_paper) none)
          doc_p1_cites_p1) doc_p1_cites_p1).g.edges = [(0, 0), (0, 0)]
    ∧ ∃ s t,
      (parse_jsonl_line (build_graph (some csv_one_paper) none) doc_p1_cites_p1).g.edges
        = (build_graph (some csv_one_paper) none).g.edges ++ [(s, t)]
      ∧ s < num_vertices (parse_jsonl_line (build_graph (some csv_one_paper) none)
          doc_p1_cites_p1).g
      ∧ t < num_vertices (parse_jsonl_line (build_graph (some csv_one_paper) none)
          doc_p1_cites_p1).g :=
  let ⟨s, t, h1, _, _, h2, h3, _⟩ :=
    C3_citation_appends_one_edge (some csv_one_paper) none doc_p1_cites_p1
      event_p1_cites_p1 rfl
  ⟨rfl, by decide, by decide, s, t, h1, h2, h3⟩


/-! ## Theorems: metadata lines (C9, C1) -/

/-- C1 on a file with two records of the same id `p1`: the second record adds a second
vertex, `node_map` moves `p1` to it, and the title, url, year, citation count and
abstract kept for `p1` are those of the second record. -/
theorem C1_second_record_of_an_id_adds_a_vertex :
    num_vertices (load_paper_info (some csv_same_id_twice) State.init).g = 2
    ∧ umap_find (load_paper_info (some (csv_same_id_twice.take 2)) State.init).node_map
        "p1".toList = some 0
    ∧ umap_find (load_paper_info (some csv_same_id_twice) State.init).node_map
        "p1".toList = some 1
    ∧ (load_paper_info (some csv_same_id_twice) State.init).g.vertices[1]?
        = some ⟨"Second".toList, "u2".toList, "p1".toList, 7, 2002, "abs2".toList⟩
    ∧ umap_find (load_paper_info (some (csv_same_id_twice.take 2)) State.init).paper_info_map
        "p1".toList = some ⟨"First".toList, "u1".toList, "p1".toList, 2001, 5, "abs1".toList⟩
    ∧ umap_find (load_paper_info (some csv_same_id_twice) State.init).paper_info_map
        "p1".toList
        = some ⟨"Second".toList, "u2".toList, "p1".toList, 2002, 7, "abs2".toList⟩ := by
  decide


/-! ## Theorems: the bookkeeping of `calculate_pagerank` -/

/-! ### The index table and `to_string` -/

theorem umap_assign_fresh {κ β : Type} [DecidableEq κ] (m : List (κ × β)) (k : κ) (v : β)
    (h : umap_find m k = none) : umap_assign m k v = m ++ [(k, v)] := by
  induction m with
  | nil => rfl
  | cons e m ih =>
    obtain ⟨k1, v1⟩ := e
    by_cases hk : k1 = k
    · simp [umap_find, hk] at h
    · simp only [umap_find, if_neg hk] at h
      simp [umap_assign, hk, ih h]

theorem umap_find_map_none {α κ β : Type} [DecidableEq κ] (l : List α) (key : α → κ)
    (val : α → β) (k : κ) (h : ∀ a ∈ l, key a ≠ k) :
    umap_find (l.map (fun a => (key a, val a))) k = none := by
  induction l with
  | nil => rfl
  | cons a l ih =>
    simp only [List.map_cons, umap_find, if_neg (h a (List.mem_cons_self _ _))]
    exact ih (fun b hb => h b (List.mem_cons_of_mem _ hb))

theorem umap_find_map_some {α κ β : Type} [DecidableEq κ] (l : List α) (key : α → κ)
    (val : α → β) (a : α) (ha : a ∈ l) (hinj : ∀ b ∈ l, key b = key a → b = a) :
    umap_find (l.map (fun a => (key a, val a))) (key a) = some (val a) := by
  induction l with
  | nil => cases ha
  | cons b l ih =>
    simp only [List.map_cons, umap_find]
    by_cases hb : key b = key a
    · rw [if_pos hb, hinj b (List.mem_cons_self _ _) hb]
    · rw [if_neg hb]
      rcases List.mem_cons.1 ha with h | h
      · exact absurd (h ▸ rfl) hb
      · exact ih h (fun c hc => hinj c (List.mem_cons_of_mem _ hc))

theorem idMapping_loop_eq (N : Nat) :
    idMapping_loop N = ((List.range N).map (fun v => (v, v)), N) := by
  unfold idMapping_loop
  induction N with
  | zero => rfl
  | succ n ih =>
    rw [List.range_succ, List.foldl_append, ih]
    simp only [List.foldl_cons, List.foldl_nil, List.map_append, List.map_cons, List.map_nil]
    congr 1
    apply umap_assign_fresh
    apply umap_find_map_none
    intro a ha
    have := List.mem_range.1 ha
    omega

/-- The table `idMapping` sends every vertex to itself. -/
theorem mapped_eq (g : Graph) (v : Nat) (hv : v < num_vertices g) : mapped g v = v := by
  unfold mapped idMapping
  rw [idMapping_loop_eq]
  have := umap_find_map_some (List.range (num_vertices g)) (fun v => v) (fun v => v) v
    (List.mem_range.2 hv) (fun b _ hb => hb)
  simp only at this
  rw [this]
  rfl

theorem digits_value_append (a : Str) (c : Char) :
    digits_value (a ++ [c]) = 10 * digits_value a + (c.toNat - 48) := by
  simp [digits_value, List.foldl_append]

theorem toNat_digit (d : Nat) (hd : d < 10) : (Char.ofNat (48 + d)).toNat - 48 = d := by
  interval_cases d <;> rfl

/-- Reading the digits of `to_string` gives the number back. -/
theorem digits_value_to_string_digits (f n : Nat) (h : n < f) :
    digits_value (to_string_digits f n) = n := by
  induction f generalizing n with
  | zero => omega
  | succ f ih =>
    unfold to_string_digits
    split
    · next h10 =>
      simp only [digits_value, List.foldl_cons, List.foldl_nil]
      rw [toNat_digit n h10]
      omega
    · next h10 =>
      rw [digits_value_append, ih (n / 10) (by omega), toNat_digit _ (Nat.mod_lt _ (by omega))]
      omega

theorem to_string_injective (a b : Nat) (h : to_string a = to_string b) : a = b := by
  have ha := digits_value_to_string_digits (a + 1) a (by omega)
  have hb := digits_value_to_string_digits (b + 1) b (by omega)
  unfold to_string at h
  rw [h] at ha
  omega

/-- The loop that stores the results, as a fold over the first `n` vertices. -/
theorem store_fold_empty {β : Type} (n : Nat) (val : Nat → β) :
    (List.range n).foldl (fun m v => umap_assign m (to_string v) (val v)) []
      = (List.range n).map (fun v => (to_string v, val v)) := by
  induction n with
  | zero => rfl
  | succ n ih =>
    rw [List.range_succ, List.foldl_append, ih]
    simp only [List.foldl_cons, List.foldl_nil, List.map_append, List.map_cons, List.map_nil]
    apply umap_assign_fresh
    apply umap_find_map_none
    intro a ha h
    have := List.mem_range.1 ha
    have := to_string_injective _ _ h
    omega

/-- A count of selected indices as a sum of zeros and ones. -/
theorem sum_map_indicator {K : Type} [LinearOrderedField K] (l : List Nat) (c : Nat → Bool) :
    (l.map (fun v => if c v then (1 : K) else 0)).sum = ((l.filter c).length : K) := by
  induction l with
  | nil => simp
  | cons a l ih =>
    cases h : c a <;> simp [List.filter_cons, h, ih]
    ring

/-- A loop of guarded writes `if c v then vec[v] = f v` over the first `n` indices. -/
theorem foldl_set_range {β : Type} (n : Nat) (c : Nat → Bool) (f : Nat → β) (d : β)
    (vec : List β) (hl : n ≤ vec.length) :
    (List.range n).foldl (fun r v => if c v then r.set v (f v) else r) vec
      = (List.range n).map (fun v => if c v then f v else vec.getD v d) ++ vec.drop n := by
  induction n with
  | zero => simp
  | succ n ih =>
    rw [List.range_succ, List.foldl_append, ih (by omega)]
    simp only [List.foldl_cons, List.foldl_nil, List.map_append, List.map_cons, List.map_nil]
    have hdrop : vec.drop n = vec.getD n d :: vec.drop (n + 1) := by
      rw [List.getD_eq_getElem _ _ (by omega)]
      exact List.drop_eq_getElem_cons (by omega)
    rw [hdrop]
    cases hc : c n
    · simp
    · simp only [if_true]
      rw [List.set_append_right _ _ (by simp)]
      simp

section Arithmetic

variable {K : Type} [LinearOrderedField K]

theorem scatter_eq (g : Graph) (vec vals : List (Dbl K)) (h1 : vec.length = num_vertices g)
    (h2 : vals.length = num_vertices g) : scatter g vec vals = vals := by
  unfold scatter
  have hcongr : (List.range (num_vertices g)).foldl
        (fun r v => r.set (mapped g v) (vals.getD v (.fin 0))) vec
      = (List.range (num_vertices g)).foldl
        (fun r v => if (fun _ => true) v then r.set v (vals.getD v (.fin 0)) else r) vec := by
    apply List.foldl_ext
    intro r v hv
    simp [mapped_eq g v (List.mem_range.1 hv)]
  rw [hcongr, foldl_set_range _ _ _ (.fin 0) _ (by omega)]
  simp only [if_true]
  rw [List.drop_of_length_le (by omega), List.append_nil]
  apply List.ext_getElem
  · simp [h2]
  · intro i hi1 hi2
    simp [List.getElem?_eq_getElem hi2]

theorem danglingNodes_eq (g : Graph) :
    (danglingNodes g : List K)
      = (List.range (num_vertices g)).map
          (fun v => if decide (out_degree v g = 0) then (1 : K) else 0) := by
  unfold danglingNodes
  have hcongr : (List.range (num_vertices g)).foldl
        (fun r v => if out_degree v g = 0 then r.set (mapped g v) (1 : K) else r)
        (List.replicate (num_vertices g) 0)
      = (List.range (num_vertices g)).foldl
        (fun r v => if (fun v => decide (out_degree v g = 0)) v then r.set v ((fun _ => (1 : K)) v)
          else r) (List.replicate (num_vertices g) 0) := by
    apply List.foldl_ext
    intro r v hv
    simp [mapped_eq g v (List.mem_range.1 hv)]
  rw [hcongr, foldl_set_range _ _ _ 0 _ (by simp)]
  rw [List.drop_of_length_le (by simp), List.append_nil]
  apply List.map_congr_left
  intro v hv
  have := List.mem_range.1 hv
  simp [List.getD_eq_getElem?_getD, this]

theorem danglingNodes_sum (g : Graph) :
    ((danglingNodes g : List K)).sum
      = (((List.range (num_vertices g)).filter (fun v => decide (out_degree v g = 0))).length : K) := by
  rw [danglingNodes_eq, sum_map_indicator]

end Arithmetic

section Arithmetic

variable {K : Type} [LinearOrderedField K]

/-- Adding a triplet to the stored entries adds its term to the sum of its row. -/
theorem row_sum_accumulate (m : List ((Nat × Nat) × K)) (a b : Nat) (w : K) (f : Nat → K)
    (i : Nat) :
    (((umap_assign m (a, b) ((umap_find m (a, b)).getD 0 + w)).filter
        (fun e => e.1.1 = i)).map (fun e => e.2 * f e.1.2)).sum
      = ((m.filter (fun e => e.1.1 = i)).map (fun e => e.2 * f e.1.2)).sum
        + (if a = i then w * f b else 0) := by
  induction m with
  | nil =>
    by_cases h : a = i <;> simp [umap_assign, umap_find, List.filter_cons, h]
  | cons e m ih =>
    obtain ⟨⟨a1, b1⟩, w1⟩ := e
    by_cases hk : (a1, b1) = (a, b)
    · obtain ⟨h1, h2⟩ := Prod.mk.inj hk
      subst h1; subst h2
      by_cases h : a1 = i <;> simp [umap_assign, umap_find, List.filter_cons, h]
      ring
    · simp only [umap_assign, umap_find, if_neg hk]
      by_cases h : a1 = i
      · simp only [List.filter_cons, h, decide_True, if_true, List.map_cons, List.sum_cons]
        simp only [h] at ih
        rw [ih]
        ring
      · simp only [List.filter_cons, h, decide_False, Bool.false_eq_true, if_false]
        exact ih

theorem row_sum_foldl (T : List (Nat × Nat × K)) (m : List ((Nat × Nat) × K)) (f : Nat → K)
    (i : Nat) :
    (((T.foldl (fun m t => umap_assign m (t.1, t.2.1)
          ((umap_find m (t.1, t.2.1)).getD 0 + t.2.2)) m).filter
        (fun e => e.1.1 = i)).map (fun e => e.2 * f e.1.2)).sum
      = ((m.filter (fun e => e.1.1 = i)).map (fun e => e.2 * f e.1.2)).sum
        + ((T.filter (fun t => t.1 = i)).map (fun t => t.2.2 * f t.2.1)).sum := by
  induction T generalizing m with
  | nil => simp
  | cons t T ih =>
    rw [List.foldl_cons, ih, row_sum_accumulate]
    by_cases h : t.1 = i <;> simp [List.filter_cons, h]
    ring

/-- The sum of a row of the matrix `setFromTriplets` builds is the sum over the
triplets of that row. -/
theorem row_sum_setFromTriplets (T : List (Nat × Nat × K)) (f : Nat → K) (i : Nat) :
    (((setFromTriplets T).filter (fun e => e.1.1 = i)).map (fun e => e.2 * f e.1.2)).sum
      = ((T.filter (fun t => t.1 = i)).map (fun t => t.2.2 * f t.2.1)).sum := by
  unfold setFromTriplets
  rw [row_sum_foldl]
  simp

theorem tripletList_eq (g : Graph) :
    (tripletList g : List (Nat × Nat × K)) = g.edges.map (fun e => (e.1, e.2, (1 : K))) := by
  unfold tripletList
  apply List.map_congr_left
  intro e he
  obtain ⟨h1, h2⟩ := g.closed e he
  rw [mapped_eq g _ h1, mapped_eq g _ h2]

/-- The sum over the edges that leave `i`, regrouped by target with multiplicities. -/
theorem edge_sum_eq_count_sum (E : List (Nat × Nat)) (N : Nat) (f : Nat → K) (i : Nat)
    (h : ∀ e ∈ E, e.2 < N) :
    ((E.filter (fun e => e.1 = i)).map (fun e => f e.2)).sum
      = ∑ j ∈ Finset.range N, (E.count (i, j) : K) * f j := by
  induction E with
  | nil => simp
  | cons e E ih =>
    have ih1 := ih (fun e1 he1 => h e1 (List.mem_cons_of_mem _ he1))
    have hlt : e.2 < N := h e (List.mem_cons_self _ _)
    have hsplit : ∀ j, ((List.count (i, j) (e :: E) : Nat) : K) * f j
        = (E.count (i, j) : K) * f j + (if j = e.2 then (if e.1 = i then f e.2 else 0) else 0) := by
      intro j
      rw [List.count_cons]
      obtain ⟨a, b⟩ := e
      by_cases h1 : a = i
      · by_cases h2 : j = b
        · subst h1; subst h2; simp; ring
        · have : ¬ b = j := fun e => h2 e.symm
          simp [h1, h2, this]
      · by_cases h2 : j = b <;> simp [h1, h2]
    simp_rw [hsplit]
    rw [Finset.sum_add_distrib, ← ih1, Finset.sum_ite_eq' (Finset.range N) e.2]
    simp only [Finset.mem_range, hlt, if_true]
    by_cases h1 : e.1 = i <;> simp [List.filter_cons, h1]
    ring

/-- Numbers are added as in `K`. -/
theorem foldl_add_fin (l : List K) (a : K) :
    (l.map Dbl.fin).foldl Dbl.add (.fin a) = .fin (a + l.sum) := by
  induction l generalizing a with
  | nil => simp
  | cons x l ih =>
    simp only [List.map_cons, List.foldl_cons, Dbl.add, ih, List.sum_cons, add_assoc]

/-- The sum of a vector of numbers is the number that is their sum. -/
theorem vec_sum_fin (l : List K) : vec_sum (l.map Dbl.fin) = .fin l.sum := by
  unfold vec_sum
  rw [foldl_add_fin, zero_add]

theorem getD_map_fin (l : List K) (j : Nat) :
    (l.map Dbl.fin).getD j (.fin 0) = .fin (l.getD j 0) := by
  by_cases hj : j < l.length
  · rw [List.getD_eq_getElem _ _ (by simpa using hj), List.getD_eq_getElem _ _ hj]
    simp
  · rw [List.getD_eq_default _ _ (by simpa using hj), List.getD_eq_default _ _ (by omega)]

/-- Row `i` of the product `adjacencyMatrix * x` on a vector of numbers. -/
theorem sparse_mul_adjacency (g : Graph) (x : List K) :
    sparse_mul (num_vertices g) (adjacencyMatrix g) (x.map Dbl.fin)
      = (List.range (num_vertices g)).map
          (fun i => Dbl.fin (∑ j ∈ Finset.range (num_vertices g),
            (g.edges.count (i, j) : K) * x.getD j 0)) := by
  unfold sparse_mul adjacencyMatrix
  apply List.map_congr_left
  intro i _
  have hmap : ((setFromTriplets (tripletList g : List (Nat × Nat × K))).filter
        (fun e => e.1.1 = i)).map
        (fun e => Dbl.mul (.fin e.2) ((x.map Dbl.fin).getD e.1.2 (.fin 0)))
      = (((setFromTriplets (tripletList g : List (Nat × Nat × K))).filter
        (fun e => e.1.1 = i)).map (fun e => e.2 * x.getD e.1.2 0)).map Dbl.fin := by
    rw [List.map_map]
    apply List.map_congr_left
    intro e _
    simp only [Function.comp, getD_map_fin, Dbl.mul]
  rw [hmap, vec_sum_fin]
  congr 1
  rw [row_sum_setFromTriplets (tripletList g) (fun j => x.getD j 0) i, tripletList_eq,
    ← edge_sum_eq_count_sum g.edges (num_vertices g) (fun j => x.getD j 0) i
      (fun e he => (g.closed e he).2)]
  rw [List.filter_map, List.map_map]
  congr 1
  apply List.map_congr_left
  intro e _
  simp

end Arithmetic


/-! ## Theorems: the iteration -/

section Arithmetic

variable {K : Type} [LinearOrderedField K]

/-- The vector `newRanks` before its division by the sum, entry by entry, on a vector of
numbers. -/
theorem pagerank_update_eq (g : Graph) (r : List K) (hN : 1 ≤ num_vertices g) :
    pagerank_update g (r.map Dbl.fin) = ((List.range (num_vertices g)).map (fun i =>
      (99 / 100 : K) * ((∑ j ∈ Finset.range (num_vertices g),
            (g.edges.count (i, j) : K) * r.getD j 0)
          + (1 / 1000000000) * (((List.range (num_vertices g)).filter
              (fun v => decide (out_degree v g = 0))).length : K))
        + (1 / 100) / (num_vertices g : K))).map Dbl.fin := by
  have hne : (num_vertices g : K) ≠ 0 := by
    have : (0 : K) < (num_vertices g : K) := by exact_mod_cast hN
    exact ne_of_gt this
  unfold pagerank_update teleport
  simp only [Dbl.div, if_neg hne]
  rw [sparse_mul_adjacency, danglingNodes_sum, List.map_map, List.map_map]
  apply List.map_congr_left
  intro i _
  simp only [Function.comp, Dbl.add, Dbl.mul, DAMPING_FACTOR, MIN_DANGLING_CONTRIBUTION,
    mul_one]
  congr 1
  norm_num

theorem vec_div_fin (v : List K) (s : K) (hs : s ≠ 0) :
    vec_div (v.map Dbl.fin) (.fin s) = (v.map (fun x => x / s)).map Dbl.fin := by
  unfold vec_div
  rw [List.map_map, List.map_map]
  apply List.map_congr_left
  intro a _
  simp [Dbl.div, hs]

theorem sum_map_div (v : List K) (s : K) : (v.map (fun x => x / s)).sum = v.sum / s := by
  induction v with
  | nil => simp
  | cons a v ih => simp [ih, add_div]

/-- A vector without negative entries and with a positive sum, divided by its sum, is a
rank vector. -/
theorem rank_vector_normalize (g : Graph) (v : List K) (hl : v.length = num_vertices g)
    (h0 : ∀ x ∈ v, 0 ≤ x) (hs : 0 < v.sum) :
    rank_vector g (v.map (fun x => x / v.sum)) := by
  refine ⟨by simp [hl], ?_, ?_⟩
  · intro y hy
    obtain ⟨x, hx, rfl⟩ := List.mem_map.1 hy
    exact div_nonneg (h0 x hx) (le_of_lt hs)
  · rw [sum_map_div, div_self (ne_of_gt hs)]

/-- On a rank vector an iteration has only positive numbers before the division. -/
theorem pagerank_update_pos (g : Graph) (r : List K) (hN : 1 ≤ num_vertices g)
    (h0 : ∀ x ∈ r, 0 ≤ x) :
    ∃ u : List K, pagerank_update g (r.map Dbl.fin) = u.map Dbl.fin
      ∧ u.length = num_vertices g ∧ ∀ x ∈ u, 0 < x := by
  refine ⟨_, pagerank_update_eq g r hN, by simp, ?_⟩
  intro x hx
  obtain ⟨i, _, rfl⟩ := List.mem_map.1 hx
  have hNpos : (0 : K) < (num_vertices g : K) := by exact_mod_cast hN
  have hget : ∀ j, 0 ≤ r.getD j 0 := by
    intro j
    by_cases hj : j < r.length
    · rw [List.getD_eq_getElem _ _ hj]
      exact h0 _ (List.getElem_mem _)
    · rw [List.getD_eq_default _ _ (by omega)]
  have hsum : 0 ≤ ∑ j ∈ Finset.range (num_vertices g),
      (g.edges.count (i, j) : K) * r.getD j 0 :=
    Finset.sum_nonneg (fun j _ => mul_nonneg (Nat.cast_nonneg _) (hget j))
  have hd : (0 : K) ≤ (1 / 1000000000) * (((List.range (num_vertices g)).filter
      (fun v => decide (out_degree v g = 0))).length : K) :=
    mul_nonneg (by norm_num) (Nat.cast_nonneg _)
  have ht : (0 : K) < (1 / 100) / (num_vertices g : K) := div_pos (by norm_num) hNpos
  have : (0 : K) ≤ (99 / 100 : K) * ((∑ j ∈ Finset.range (num_vertices g),
      (g.edges.count (i, j) : K) * r.getD j 0)
      + (1 / 1000000000) * (((List.range (num_vertices g)).filter
          (fun v => decide (out_degree v g = 0))).length : K)) :=
    mul_nonneg (by norm_num) (add_nonneg hsum hd)
  linarith

/-- One round of the loop on a rank vector: the update has a positive sum and its
division by the sum is a rank vector again. -/
theorem pagerank_round_rank_vector (g : Graph) (r : List K) (hN : 1 ≤ num_vertices g)
    (hr : rank_vector g r) :
    ∃ u : List K, pagerank_update g (r.map Dbl.fin) = u.map Dbl.fin ∧ 0 < u.sum
      ∧ vec_div (pagerank_update g (r.map Dbl.fin)) (vec_sum (pagerank_update g (r.map Dbl.fin)))
          = (u.map (fun x => x / u.sum)).map Dbl.fin
      ∧ rank_vector g (u.map (fun x => x / u.sum)) := by
  obtain ⟨u, hu, hlen, hpos⟩ := pagerank_update_pos g r hN hr.2.1
  have hne : u ≠ [] := by
    intro h
    rw [h] at hlen
    simp at hlen
    omega
  have hs : 0 < u.sum := List.sum_pos _ hpos hne
  refine ⟨u, hu, hs, ?_, rank_vector_normalize g u hlen (fun x hx => le_of_lt (hpos x hx)) hs⟩
  rw [hu, vec_sum_fin, vec_div_fin _ _ (ne_of_gt hs)]

theorem max_fin (a b : K) : Dbl.max (.fin a) (.fin b) = .fin (max a b) := by
  unfold Dbl.max Dbl.lt
  by_cases h : a < b
  · simp [h, max_eq_right (le_of_lt h)]
  · simp [h, max_eq_left (not_lt.1 h)]

/-- Filling an empty map leaves one entry per vertex, keyed by `to_string` of the
vertex, in vertex order. -/
theorem store_ranks_empty (g : Graph) (ranks : List (Dbl K)) (scaleFactor : Dbl K) :
    store_ranks g ranks scaleFactor []
      = (List.range (num_vertices g)).map
          (fun v => (to_string v, Dbl.mul (ranks.getD v (.fin 0)) scaleFactor)) := by
  unfold store_ranks
  have hcongr : (List.range (num_vertices g)).foldl
        (fun m v => umap_assign m (to_string v)
          (Dbl.mul (ranks.getD (mapped g v) (.fin 0)) scaleFactor)) ([] : List (Str × Dbl K))
      = (List.range (num_vertices g)).foldl
        (fun m v => umap_assign m (to_string v)
          (Dbl.mul (ranks.getD v (.fin 0)) scaleFactor)) [] := by
    apply List.foldl_ext
    intro m w hw
    rw [mapped_eq g w (List.mem_range.1 hw)]
  rw [hcongr]
  exact store_fold_empty _ (fun v => Dbl.mul (ranks.getD v (.fin 0)) scaleFactor)

/-! ### Lengths -/

theorem add_nan (x : Dbl K) : Dbl.add x .nan = .nan := by cases x <;> rfl

theorem mul_nan (x : Dbl K) : Dbl.mul x .nan = .nan := by cases x <;> rfl

theorem div_nan (x : Dbl K) : Dbl.div x .nan = .nan := by cases x <;> rfl

theorem foldl_add_nan (l : List (Dbl K)) : l.foldl Dbl.add .nan = .nan := by
  induction l with
  | nil => rfl
  | cons x l ih => simp only [List.foldl_cons, Dbl.add, ih]

/-- The sum of a vector that holds a NaN is NaN. -/
theorem vec_sum_nan (l : List (Dbl K)) (h : Dbl.nan ∈ l) : vec_sum l = .nan := by
  unfold vec_sum
  generalize (Dbl.fin (0 : K)) = a
  induction l generalizing a with
  | nil => cases h
  | cons x l ih =>
    rw [List.foldl_cons]
    rcases List.mem_cons.1 h with hx | hx
    · rw [← hx, add_nan, foldl_add_nan]
    · exact ih hx _

/-- A vector divided by NaN holds only NaN. -/
theorem vec_div_nan (v : List (Dbl K)) :
    vec_div v .nan = List.replicate v.length .nan := by
  unfold vec_div
  induction v with
  | nil => rfl
  | cons x v ih => rw [List.map_cons, div_nan, ih, List.length_cons, List.replicate_succ]

end Arithmetic

/-! ### The initialisation over the reals -/

/-- Without an edge the update does not read the old ranks. -/
theorem pagerank_update_no_edge {K : Type} [LinearOrderedField K] (g : Graph)
    (he : g.edges = []) (x y : List (Dbl K)) : pagerank_update g x = pagerank_update g y := by
  have hA : (adjacencyMatrix g : List ((Nat × Nat) × K)) = [] := by
    unfold adjacencyMatrix tripletList
    rw [he]
    rfl
  unfold pagerank_update
  rw [hA]
  simp [sparse_mul]

/-- C5 on one paper without citations (the record `p1,u1,First,2001,0,abs1`):
`maxCitations` is 0, the citation bias is `log 1 / log 1`, a division of 0 by 0 without
a guard, and the initial rank is NaN, neither 0 nor uniform. The graph has no edge, so
the update never reads this NaN: the loop prints the difference NaN, then 0, and the
rank written for the paper is 1. -/
theorem C5_zero_citations_divide_by_zero :
    graph_zero_citations.vertices.map VertexProperties.centrality = [0]
    ∧ maxCitations graph_zero_citations = 0
    ∧ Dbl.log Real.log (int_add 0 1) = .fin 0
    ∧ Dbl.log Real.log (int_add (maxCitations graph_zero_citations) 1) = .fin 0
    ∧ graph_zero_citations.vertices.map (normalizedCitation Real.log graph_zero_citations)
        = [.nan]
    ∧ pagerank_init Real.log graph_zero_citations = [.nan]
    ∧ calculate_pagerank Real.log Real.sqrt graph_zero_citations []
        = .ok ⟨[("0".toList, .fin 1)], [(0, .nan), (1, .fin 0)]⟩ := by
  have hN : num_vertices graph_zero_citations = 1 := rfl
  have hv : graph_zero_citations.vertices
      = [⟨"First".toList, "u1".toList, "p1".toList, 0, 2001, "abs1".toList⟩] := by decide
  have hM : maxCitations graph_zero_citations = 0 := by decide
  have ha : int_add 0 1 = 1 := by decide
  have hlog : Dbl.log Real.log 1 = .fin 0 := by
    simp [Dbl.log]
  have hnc : graph_zero_citations.vertices.map
      (normalizedCitation Real.log graph_zero_citations) = [.nan] := by
    rw [hv]
    simp [normalizedCitation, hM, ha, hlog, Dbl.div, Dbl.scale_inf]
  have hinit : pagerank_init Real.log graph_zero_citations = [.nan] := by
    unfold pagerank_init
    simp only [hnc]
    rw [scatter_eq _ _ _ (by simp [hN]) (by simp [hN]), vec_sum_nan _ (by simp), vec_div_nan]
    rfl
  have hupd : ∀ x : List (Dbl ℝ), vec_div (pagerank_update graph_zero_citations x)
      (vec_sum (pagerank_update graph_zero_citations x)) = [.fin 1] := by
    intro x
    rw [pagerank_update_no_edge graph_zero_citations (by decide) x (([1] : List ℝ).map Dbl.fin)]
    have hone : rank_vector graph_zero_citations ([1] : List ℝ) := by
      refine ⟨rfl, ?_, ?_⟩
      · intro y hy
        rw [List.mem_singleton.1 hy]
        exact zero_le_one
      · rw [List.sum_singleton]
    obtain ⟨u, hu, hs, hdiv, hgood⟩ := pagerank_round_rank_vector graph_zero_citations
      ([1] : List ℝ) (by decide) hone
    rw [hdiv]
    have hlen : (u.map (fun x => x / u.sum)).length = 1 := hgood.1
    have hsum := hgood.2.2
    cases hl : u.map (fun x => x / u.sum) with
    | nil => rw [hl] at hlen; cases hlen
    | cons a t =>
      rw [hl] at hlen hsum
      cases t with
      | nil =>
        simp only [List.sum_cons, List.sum_nil, add_zero] at hsum
        rw [hsum]
        rfl
      | cons b t1 => simp at hlen
  refine ⟨by decide, hM, by rw [ha]; exact hlog, by rw [hM, ha]; exact hlog, hnc, hinit, ?_⟩
  unfold calculate_pagerank
  simp only [hinit]
  rw [show MAX_ITERATIONS = 98 + 1 + 1 from rfl, pagerank_loop]
  simp only [hupd]
  have hd0 : diff_norm Real.sqrt [.fin (1 : ℝ)] [.nan] = .nan := by
    simp [diff_norm, vec_sum, Dbl.sub, Dbl.neg, Dbl.add, Dbl.mul, Dbl.sqrt]
  have hlt0 : Dbl.lt (.nan : Dbl ℝ) (.fin CONVERGENCE_THRESHOLD) = false := rfl
  rw [hd0]
  simp only [hlt0, Bool.false_eq_true, if_false]
  rw [pagerank_loop]
  simp only [hupd]
  have hd1 : diff_norm Real.sqrt [.fin (1 : ℝ)] [.fin 1] = .fin 0 := by
    simp [diff_norm, vec_sum, Dbl.sub, Dbl.neg, Dbl.add, Dbl.mul, Dbl.sqrt]
  have hlt1 : Dbl.lt (.fin (0 : ℝ)) (.fin CONVERGENCE_THRESHOLD) = true := by
    simp [Dbl.lt, CONVERGENCE_THRESHOLD]
  rw [hd1]
  simp only [hlt1, if_true]
  have hmax : maxCoeff [Dbl.fin (1 : ℝ)] = .ok (.fin 1) := rfl
  simp only [hmax]
  rw [store_ranks_empty, hN]
  have t0 : to_string 0 = "0".toList := by decide
  simp [List.range_succ, t0, Dbl.div, Dbl.mul]

/-- C6 on the graph without vertices (empty input files): the initialisation leaves the
empty vector, the loop runs its first iteration, in which `(1 - DAMPING_FACTOR) /
numNodes` divides by 0 (the result is +inf), prints the difference 0 and stops, and the
maximum that follows the loop is taken of an empty vector, which ends the run. -/
theorem C6_empty_graph_divides_by_zero :
    num_vertices graph_no_input = 0
    ∧ pagerank_init Real.log graph_no_input = []
    ∧ (teleport graph_no_input : Dbl ℝ) = .pinf
    ∧ pagerank_loop Real.sqrt graph_no_input MAX_ITERATIONS 0 [] [] = ([], [(0, .fin 0)])
    ∧ maxCoeff ([] : List (Dbl ℝ)) = .error .maxCoeff_of_empty
    ∧ calculate_pagerank Real.log Real.sqrt graph_no_input [] = .error .maxCoeff_of_empty := by
  have hg : graph_no_input = Graph.empty := rfl
  have h1 : pagerank_init Real.log graph_no_input = [] := by
    rw [hg]
    simp [pagerank_init, Graph.empty, scatter, num_vertices, vec_div]
  have h2 : (teleport graph_no_input : Dbl ℝ) = .pinf := by
    rw [hg]
    simp only [teleport, num_vertices, Graph.empty, List.length_nil, Nat.cast_zero, Dbl.div,
      if_true, Dbl.scale_inf, DAMPING_FACTOR]
    norm_num
  have h3 : pagerank_loop Real.sqrt graph_no_input MAX_ITERATIONS 0 [] []
      = ([], [(0, .fin 0)]) := by
    rw [show MAX_ITERATIONS = 99 + 1 from rfl, pagerank_loop, hg]
    have hu : pagerank_update Graph.empty ([] : List (Dbl ℝ)) = [] := by
      simp [pagerank_update, sparse_mul, num_vertices, Graph.empty]
    simp only [hu]
    have hd : diff_norm Real.sqrt (vec_div ([] : List (Dbl ℝ)) (vec_sum [])) [] = .fin 0 := by
      simp [diff_norm, vec_div, vec_sum, Dbl.sqrt]
    rw [hd]
    have hlt : Dbl.lt (.fin (0 : ℝ)) (.fin CONVERGENCE_THRESHOLD) = true := by
      simp [Dbl.lt, CONVERGENCE_THRESHOLD]
    simp only [hlt, if_true]
    rfl
  refine ⟨rfl, h1, h2, h3, rfl, ?_⟩
  unfold calculate_pagerank
  simp only [h1, h3]
  rfl

/-! ## Theorems: the update (C7) and the three-cycle (C8) -/

theorem log_eleven_ne_zero : Real.log ((11 : Int) : ℝ) ≠ 0 := by
  apply ne_of_gt
  apply Real.log_pos
  norm_num

/-- C8: on the cycle `A -> B -> C -> A` with 10 citations each, over the reals, the
initial vector is (1/3, 1/3, 1/3), no vertex is dangling, the update leaves the vector
as it is, the loop prints iteration 0 with difference 0 and stops there, and every
vertex gets the rank 1. -/
theorem C8_three_cycle_all_ranks_one :
    pagerank_init Real.log graph_cycle = [.fin (1 / 3), .fin (1 / 3), .fin (1 / 3)]
    ∧ (danglingNodes graph_cycle : List ℝ) = [0, 0, 0]
    ∧ pagerank_update graph_cycle [.fin (1 / 3 : ℝ), .fin (1 / 3), .fin (1 / 3)]
        = [.fin (1 / 3), .fin (1 / 3), .fin (1 / 3)]
    ∧ calculate_pagerank Real.log Real.sqrt graph_cycle []
        = .ok ⟨[("0".toList, .fin 1), ("1".toList, .fin 1), ("2".toList, .fin 1)],
            [(0, .fin 0)]⟩ := by
  have hN : num_vertices graph_cycle = 3 := rfl
  have hinit : pagerank_init Real.log graph_cycle
      = [.fin (1 / 3), .fin (1 / 3), .fin (1 / 3)] := by
    have hM : maxCitations graph_cycle = 10 := by decide
    have ha : int_add 10 1 = 11 := by decide
    have hnc : ∀ p ∈ graph_cycle.vertices,
        normalizedCitation Real.log graph_cycle p = (fun _ => Dbl.fin (1 : ℝ)) p := by
      intro p hp
      have hp10 : p.centrality = 10 := by
        have hall : ∀ q ∈ graph_cycle.vertices, q.centrality = 10 := by decide
        exact hall p hp
      unfold normalizedCitation Dbl.log
      rw [hp10, hM, ha]
      simp only [show (0 : Int) < 11 by decide, if_true, Dbl.div, if_neg log_eleven_ne_zero,
        div_self log_eleven_ne_zero]
    unfold pagerank_init
    rw [List.map_congr_left hnc]
    simp only
    rw [scatter_eq graph_cycle _ _ (by simp) (by simp [num_vertices])]
    have hv : graph_cycle.vertices.map (fun _ => Dbl.fin (1 : ℝ))
        = ([1, 1, 1] : List ℝ).map Dbl.fin := rfl
    rw [hv, vec_sum_fin, vec_div_fin _ _ (by norm_num)]
    norm_num
  have hdang : (danglingNodes graph_cycle : List ℝ) = [0, 0, 0] := by
    rw [danglingNodes_eq, hN]
    have h0 : out_degree 0 graph_cycle = 1 := by decide
    have h1 : out_degree 1 graph_cycle = 1 := by decide
    have h2 : out_degree 2 graph_cycle = 1 := by decide
    simp [List.range_succ, h0, h1, h2]
  have hupd : pagerank_update graph_cycle [.fin (1 / 3 : ℝ), .fin (1 / 3), .fin (1 / 3)]
      = [.fin (1 / 3), .fin (1 / 3), .fin (1 / 3)] := by
    have h := pagerank_update_eq graph_cycle ([1 / 3, 1 / 3, 1 / 3] : List ℝ) (by decide)
    simp only [List.map_cons, List.map_nil] at h
    rw [h, hN]
    have hf : (List.range 3).filter (fun v => decide (out_degree v graph_cycle = 0)) = [] := by
      decide
    have c00 : List.count (0 : Nat × Nat) graph_cycle.edges = 0 := by decide
    have c01 : List.count (0, 1) graph_cycle.edges = 1 := by decide
    have c02 : List.count (0, 2) graph_cycle.edges = 0 := by decide
    have c10 : List.count (1, 0) graph_cycle.edges = 0 := by decide
    have c11 : List.count (1 : Nat × Nat) graph_cycle.edges = 0 := by decide
    have c12 : List.count (1, 2) graph_cycle.edges = 1 := by decide
    have c20 : List.count (2, 0) graph_cycle.edges = 1 := by decide
    have c21 : List.count (2, 1) graph_cycle.edges = 0 := by decide
    have c22 : List.count (2, 2) graph_cycle.edges = 0 := by decide
    rw [hf]
    simp [List.range_succ, Finset.sum_range_succ, c00, c01, c02, c10, c11, c12, c20, c21, c22]
    norm_num
  refine ⟨hinit, hdang, hupd, ?_⟩
  unfold calculate_pagerank
  simp only [hinit]
  rw [show MAX_ITERATIONS = 99 + 1 from rfl, pagerank_loop]
  simp only [hupd]
  have hlist : ([.fin (1 / 3), .fin (1 / 3), .fin (1 / 3)] : List (Dbl ℝ))
      = ([1 / 3, 1 / 3, 1 / 3] : List ℝ).map Dbl.fin := rfl
  have hdiv : vec_div ([.fin (1 / 3), .fin (1 / 3), .fin (1 / 3)] : List (Dbl ℝ))
      (vec_sum [.fin (1 / 3), .fin (1 / 3), .fin (1 / 3)])
      = [.fin (1 / 3), .fin (1 / 3), .fin (1 / 3)] := by
    rw [hlist, vec_sum_fin, vec_div_fin _ _ (by norm_num)]
    norm_num
  rw [hdiv]
  have hdiff : diff_norm Real.sqrt ([.fin (1 / 3), .fin (1 / 3), .fin (1 / 3)] : List (Dbl ℝ))
      [.fin (1 / 3), .fin (1 / 3), .fin (1 / 3)] = .fin 0 := by
    simp [diff_norm, vec_sum, Dbl.sub, Dbl.neg, Dbl.add, Dbl.mul, Dbl.sqrt]
  rw [hdiff]
  have hlt : Dbl.lt (.fin (0 : ℝ)) (.fin CONVERGENCE_THRESHOLD) = true := by
    simp [Dbl.lt, CONVERGENCE_THRESHOLD]
  simp only [hlt, if_true]
  have hmax : maxCoeff ([.fin (1 / 3), .fin (1 / 3), .fin (1 / 3)] : List (Dbl ℝ))
      = .ok (.fin (1 / 3)) := by
    simp [maxCoeff, max_fin]
  simp only [hmax]
  rw [store_ranks_empty, hN]
  have t0 : to_string 0 = "0".toList := by decide
  have t1 : to_string 1 = "1".toList := by decide
  have t2 : to_string 2 = "2".toList := by decide
  simp [List.range_succ, t0, t1, t2, Dbl.div, Dbl.mul]


/-! ## Theorems: the keys of the rank map (C10) -/

/-- The output of `escape_dot_string` never starts with a double quote. -/
theorem escape_dot_string_head (t : Str) : (escape_dot_string t).head? ≠ some dquote := by
  cases t with
  | nil => simp [escape_dot_string]
  | cons c cs =>
    unfold escape_dot_string
    split
    · simp only [List.head?_cons]
      intro h
      have : backslash = dquote := Option.some.inj h
      exact absurd this (by decide)
    · next hc =>
      simp only [List.head?_cons]
      intro h
      exact hc (Option.some.inj h)

/-- A string that does not start with a double quote does not start with two. -/
theorem not_prefix_of_head (s : Str) (h : s.head? ≠ some dquote) :
    List.isPrefixOf [dquote, dquote] s = false := by
  cases s with
  | nil => rfl
  | cons c cs =>
    have hc : ¬ dquote = c := fun e => h (by rw [List.head?_cons, e])
    simp [List.isPrefixOf, hc]

/-- The loop of `ReplaceAll` for two double quotes leaves an escaped string as it is,
however many rounds it is given. -/
theorem scan_escape_dot_string (n : Nat) (t : Str) :
    ReplaceAll.scan [dquote, dquote] [' '] n (escape_dot_string t) = escape_dot_string t := by
  induction t generalizing n with
  | nil => cases n <;> rfl
  | cons c cs ih =>
    by_cases hc : c = dquote
    · have he : escape_dot_string (c :: cs) = backslash :: dquote :: escape_dot_string cs := by
        simp [escape_dot_string, hc]
      rw [he]
      cases n with
      | zero => rfl
      | succ n =>
        have h1 : List.isPrefixOf [dquote, dquote]
            (backslash :: dquote :: escape_dot_string cs) = false :=
          not_prefix_of_head _ (by simp only [List.head?_cons]; decide)
        rw [ReplaceAll.scan, if_neg (by rw [h1]; simp)]
        cases n with
        | zero => rfl
        | succ n =>
          have h2 : List.isPrefixOf [dquote, dquote] (dquote :: escape_dot_string cs)
              = false := by
            have hh := escape_dot_string_head cs
            cases hcs : escape_dot_string cs with
            | nil => rfl
            | cons d ds =>
              rw [hcs, List.head?_cons] at hh
              have hd : ¬ dquote = d := fun e => hh (by rw [e])
              simp [List.isPrefixOf, hd]
          rw [ReplaceAll.scan, if_neg (by rw [h2]; simp), ih n]
    · have he : escape_dot_string (c :: cs) = c :: escape_dot_string cs := by
        simp [escape_dot_string, hc]
      rw [he]
      cases n with
      | zero => rfl
      | succ n =>
        have h1 : List.isPrefixOf [dquote, dquote] (c :: escape_dot_string cs) = false :=
          not_prefix_of_head _ (by
            simp only [List.head?_cons]
            intro h
            exact hc (Option.some.inj h))
        rw [ReplaceAll.scan, if_neg (by rw [h1]; simp), ih n]

/-- In an escaped string a double quote is never followed by a double quote. -/
theorem escape_dot_string_no_double_quote (t : Str) (a b : Str) :
    escape_dot_string t ≠ a ++ dquote :: dquote :: b := by
  induction t generalizing a with
  | nil =>
    intro h
    simp [escape_dot_string] at h
  | cons c cs ih =>
    intro h
    by_cases hc : c = dquote
    · have he : escape_dot_string (c :: cs) = backslash :: dquote :: escape_dot_string cs := by
        simp [escape_dot_string, hc]
      rw [he] at h
      cases a with
      | nil =>
        have := (List.cons.inj h).1
        exact absurd this (by decide)
      | cons x a1 =>
        have h1 := (List.cons.inj h).2
        cases a1 with
        | nil =>
          have h2 := (List.cons.inj h1).2
          have hh := escape_dot_string_head cs
          rw [h2] at hh
          exact hh rfl
        | cons y a2 =>
          exact ih a2 (List.cons.inj h1).2
    · have he : escape_dot_string (c :: cs) = c :: escape_dot_string cs := by
        simp [escape_dot_string, hc]
      rw [he] at h
      cases a with
      | nil => exact hc (List.cons.inj h).1
      | cons x a1 => exact ih a1 (List.cons.inj h).2

/-- C12: replacing two adjacent double quotes by a space leaves every output of
`escape_dot_string` as it is, because such an output never holds two adjacent double
quotes; so the title `load_paper_info` stores is the escaped third field. -/
theorem C12_replace_after_escape_is_identity (t : Str) :
    ReplaceAll (escape_dot_string t) [dquote, dquote] [' '] (by simp) = escape_dot_string t
    ∧ (∀ a b : Str, escape_dot_string t ≠ a ++ dquote :: dquote :: b)
    ∧ (∀ (st : State) (line : Str), load_accepts line = true →
        ∃ p, (load_paper_line st line).g.vertices = st.g.vertices ++ [p]
          ∧ p.name = escape_dot_string ((split_csv_line line).getD 2 [])) := by
  refine ⟨scan_escape_dot_string _ t, escape_dot_string_no_double_quote t, ?_⟩
  intro st line h
  unfold load_accepts at h
  simp only [Bool.and_eq_true, decide_eq_true_eq] at h
  obtain ⟨⟨hlen, hy⟩, hc⟩ := h
  unfold load_paper_line
  simp only
  rw [if_neg (by omega)]
  split
  · next e he => rw [he] at hy; simp [Except.toBool] at hy
  · split
    · next e he => rw [he] at hc; simp [Except.toBool] at hc
    · refine ⟨_, vertices_set_add_vertex _ _, ?_⟩
      exact scan_escape_dot_string _ _


end ResearchQuest
